import Mathlib

/-!
Verification of the behavior-tree model / validation / build engine of
`behavior3editor` (file `b3util`, given as `src/unnamed/part_000`).

The TypeScript source is shallowly embedded:
* dynamic JS argument values become `JsValue` (numbers as `Rat`, since JS
  numbers admit a fractionality test `value === Math.floor(value)`;
  nested arrays/objects, which no validator distinguishes, are not modelled);
* `undefined` becomes `Option.none`;
* JS string truthiness (`""` falsy) is made explicit at each use site;
* the `console.error` / `message.error` diagnostic side channels become an
  explicit `List Diag` result component;
* the filesystem touched by subtree resolution becomes an association list
  from subtree path to parsed file content and modification time;
* JS bitwise operations (always 32-bit in JS) act on `Nat` values that the
  code keeps below 64, with `& ~mask` rendered as `&&& (2^32 - 1 ^^^ mask)`.
-/

namespace B3

/-- A JS scalar value: number, string or boolean. -/
inductive JsScalar where
  | num (q : Rat)
  | str (s : String)
  | boolv (b : Bool)
deriving DecidableEq, Repr

/-- A JS value as far as the validators distinguish values: a scalar or an
array of scalars. -/
inductive JsValue where
  | num (q : Rat)
  | str (s : String)
  | boolv (b : Bool)
  | arr (elems : List JsScalar)
deriving DecidableEq, Repr

/-- JS `String.prototype.includes`: `pat` occurs contiguously in `s`. -/
def chIncludes (s pat : String) : Bool :=
  (s.data.tails).any (fun t => pat.data.isPrefixOf t)

/-- JS `String.prototype.endsWith`. -/
def chEndsWith (s pat : String) : Bool :=
  s.data.reverse.take pat.data.length == pat.data.reverse

/-- JS `String.prototype.startsWith`. -/
def chStartsWith (s pat : String) : Bool :=
  pat.data.isPrefixOf s.data

/-- Decimal digit character for `d < 10` (`9` for anything larger). -/
def digitChar (d : Nat) : Char :=
  match d with
  | 0 => '0' | 1 => '1' | 2 => '2' | 3 => '3' | 4 => '4'
  | 5 => '5' | 6 => '6' | 7 => '7' | 8 => '8' | _ => '9'

/-- Big-endian decimal digits of `n`; `fuel` bounds the recursion depth and
any `fuel > n` is enough. -/
def natDecAux (fuel : Nat) (n : Nat) : List Char :=
  match fuel with
  | 0 => []
  | f + 1 => if n < 10 then [digitChar n] else natDecAux f (n / 10) ++ [digitChar (n % 10)]

/-- The decimal rendering of a natural number, as JS `String(n)` produces. -/
def natDec (n : Nat) : String := ⟨natDecAux (n + 1) n⟩

/-- The decimal rendering of an integer, as JS `Number.prototype.toFixed()`
(zero digits) produces on an integral number. -/
def intDec (i : Int) : String :=
  if i < 0 then "-" ++ natDec i.natAbs else natDec i.toNat

/-- Numeric value of a big-endian decimal digit list. -/
def digitsVal (cs : List Char) : Nat :=
  cs.foldl (fun a c => 10 * a + (c.toNat - 48)) 0

/-- JS `Number(s)` restricted to the optionally-signed decimal strings this
code produces for node ids. -/
def jsNumber (s : String) : Int :=
  match s.data with
  | '-' :: rest => -(digitsVal rest : Int)
  | l => (digitsVal l : Int)

/-- An option in an enum argument schema (`{ name, value }`). -/
structure ArgOption where
  name : String
  value : JsValue
deriving DecidableEq, Repr

/-- Schema of one node argument (`NodeArg` in `b3type`): `type` is a
string-encoded descriptor (base kind plus optional `[]` / `?` markers). -/
structure NodeArg where
  name : String
  type : String
  options : Option (List ArgOption) := none
  oneof : Option String := none
deriving DecidableEq, Repr

/-- Schema of a node (`NodeDef` in `b3type`): optional fields stay optional. -/
structure NodeDef where
  name : String
  desc : Option String := none
  args : Option (List NodeArg) := none
  input : Option (List String) := none
  output : Option (List String) := none
  children : Option Int := none
  status : Option (List String) := none
deriving DecidableEq, Repr

/-- Modelled from the spec: the registry's sentinel definition returned for
unknown node names (`unknownNodeDef` lives in `b3type`, outside the given
sources); only its `name`, used as the identity test in `checkNodeData`,
matters here. -/
def unknownNodeDef : NodeDef := { name := "unknown" }

/-- Modelled from the spec: the node-definition registry
(`useWorkspace.getState().getNodeDef`), a total lookup from node name to
definition that yields `unknownNodeDef` for unknown names. -/
def Registry : Type := String → NodeDef

/-- `getNodeArgRawType`: the leading `\w+` run of the type descriptor. -/
def getNodeArgRawType (arg : NodeArg) : String :=
  ⟨arg.type.data.takeWhile (fun c => c.isAlpha || c.isDigit || c = '_')⟩

/-- `isNodeArgArray`: the descriptor carries the `[]` marker. -/
def isNodeArgArray (arg : NodeArg) : Bool := chIncludes arg.type "[]"

/-- `isNodeArgOptional`: the descriptor carries the `?` marker. -/
def isNodeArgOptional (arg : NodeArg) : Bool := chIncludes arg.type "?"

/-- Modelled from the spec: the base-kind predicates from `b3type`
(`float|int|string|enum|expr|json|bool`). -/
def isFloatType (t : String) : Bool := t == "float"

def isIntType (t : String) : Bool := t == "int"

def isStringType (t : String) : Bool := t == "string"

def isEnumType (t : String) : Bool := t == "enum"

def isExprType (t : String) : Bool := t == "expr"

def isJsonType (t : String) : Bool := t == "json"

def isBoolType (t : String) : Bool := t == "bool"

/-- Identity of the node a diagnostic refers to (`check ${data.id}|${data.name}`). -/
structure ErrCtx where
  id : String
  name : String
deriving DecidableEq, Repr

/-- One diagnostic, one constructor per `error` / `message.error` call site. -/
inductive Diag where
  | notNumber (ctx : ErrCtx) (argName : String)
  | notInt (ctx : ErrCtx) (argName : String)
  | notString (ctx : ErrCtx) (argName : String)
  | notEnum (ctx : ErrCtx) (argName : String)
  | notExpr (ctx : ErrCtx) (argName : String)
  | notJson (ctx : ErrCtx) (argName : String)
  | notBool (ctx : ErrCtx) (argName : String)
  | unknownArgType (ctx : ErrCtx) (argType : String)
  | notArray (ctx : ErrCtx) (argName : String)
  | oneofViolation (ctx : ErrCtx) (argName : String)
  | undefinedNode (ctx : ErrCtx) (nodeName : String)
  | childCount (ctx : ErrCtx) (expected : Int) (got : Nat)
  | inputRequired (ctx : ErrCtx) (field : String)
  | outputRequired (ctx : ErrCtx) (field : String)
  | circular (path : String)
  | subtreeFail (path : String)
deriving DecidableEq, Repr

/-- `checkNodeArgValue(data, arg, value, verbose)`: validates one scalar value
against the argument's base kind. Returns the boolean result together with
the emitted diagnostics (the source's `error` console channel); diagnostics
of the typed branches are emitted only when `verbose`, the unknown-type
diagnostic unconditionally. Note the source's unknown-type branch does not
set `hasError`. -/
def checkNodeArgValue (ctx : ErrCtx) (arg : NodeArg) (value : Option JsValue)
    (verbose : Bool) : Bool × List Diag :=
  let type := getNodeArgRawType arg
  if isFloatType type then
    let isNumber := match value with | some (.num _) => true | _ => false
    let isOptional := value == none && isNodeArgOptional arg
    if !(isNumber || isOptional) then
      (false, if verbose then [.notNumber ctx arg.name] else [])
    else (true, [])
  else if isIntType type then
    let isInt := match value with | some (.num q) => q == (q.floor : Rat) | _ => false
    let isOptional := value == none && isNodeArgOptional arg
    if !(isInt || isOptional) then
      (false, if verbose then [.notInt ctx arg.name] else [])
    else (true, [])
  else if isStringType type then
    let isString := match value with | some (.str s) => s != "" | _ => false
    let isOptional := (value == none || value == some (.str "")) && isNodeArgOptional arg
    if !(isString || isOptional) then
      (false, if verbose then [.notString ctx arg.name] else [])
    else (true, [])
  else if isEnumType type then
    let isEnum := (arg.options.getD []).any (fun o => some o.value == value)
    let isOptional := value == none && isNodeArgOptional arg
    if !(isEnum || isOptional) then
      (false, if verbose then [.notEnum ctx arg.name] else [])
    else (true, [])
  else if isExprType type then
    let isExpr := match value with | some (.str s) => s != "" | _ => false
    let isOptional := (value == none || value == some (.str "")) && isNodeArgOptional arg
    if !(isExpr || isOptional) then
      (false, if verbose then [.notExpr ctx arg.name] else [])
    else (true, [])
  else if isJsonType type then
    let isJson := value != none && value != some (.str "")
    let isOptional := isNodeArgOptional arg
    if !(isJson || isOptional) then
      (false, if verbose then [.notJson ctx arg.name] else [])
    else (true, [])
  else if isBoolType type then
    let isBool := match value with | some (.boolv _) => true | none => true | _ => false
    if !isBool then
      (false, if verbose then [.notBool ctx arg.name] else [])
    else (true, [])
  else
    (true, [.unknownArgType ctx arg.type])

/-- `checkOneof(argValue, inputValue)`: `undefined` is coerced to `""` and
the check passes iff exactly one side differs from `""`. -/
def checkOneof (argValue inputValue : Option JsValue) : Bool :=
  let a := argValue.getD (.str "")
  let i := inputValue.getD (.str "")
  (a != JsValue.str "" && i == JsValue.str "") || (a == JsValue.str "" && i != JsValue.str "")

/-- `isValidInputOrOutput(inputDef, inputData, index)`: the slot is valid when
its descriptor is optional (`?`), its data value is truthy (a non-empty
string), or it is the trailing variadic (`...`) descriptor. -/
def isValidInputOrOutput (inputDef : List String) (inputData : Option (List String))
    (index : Nat) : Bool :=
  chIncludes (inputDef.getD index "") "?" ||
  ((inputData.getD []).getD index "") != "" ||
  (index == inputDef.length - 1 && chEndsWith (inputDef.getD index "") "...")


/-- The claim-side notion of a non-empty value for oneof exclusivity: the
value is supplied and is not the empty string (an undefined value counts as
empty). -/
def valueNonEmpty (v : Option JsValue) : Prop :=
  v ≠ none ∧ v ≠ some (.str "")

instance (v : Option JsValue) : Decidable (valueNonEmpty v) := by
  unfold valueNonEmpty; infer_instance

/-- C6: for any pair (argument value, linked input slot value), the oneof
exclusivity check `checkOneof` passes iff exactly one of the two is
non-empty; an undefined value on either side counts as empty, and
both-present / both-absent fail. -/
theorem C6_oneof_exclusivity (argValue inputValue : Option JsValue) :
    checkOneof argValue inputValue = true ↔
      ((valueNonEmpty argValue ∧ ¬ valueNonEmpty inputValue) ∨
       (¬ valueNonEmpty argValue ∧ valueNonEmpty inputValue)) := by
  rcases argValue with _ | a <;> rcases inputValue with _ | i <;>
    simp [checkOneof, valueNonEmpty]

/-- C7: for an index inside the slot-descriptor list, the slot is judged
valid iff its descriptor contains the optional marker `?`, or the data
value at that index is present and a non-empty string, or the index is the
final one and its descriptor ends with the variadic marker `...`. -/
theorem C7_slot_validity (defs : List String) (dataOpt : Option (List String))
    (i : Nat) (h : i < defs.length) :
    isValidInputOrOutput defs dataOpt i = true ↔
      (chIncludes (defs.get ⟨i, h⟩) "?" = true ∨
       (∃ l v, dataOpt = some l ∧ l.get? i = some v ∧ v ≠ "") ∨
       (i = defs.length - 1 ∧ chEndsWith (defs.get ⟨i, h⟩) "..." = true)) := by
  have hd : defs.getD i "" = defs.get ⟨i, h⟩ := by
    simp [List.getD_eq_getElem?_getD, List.getElem?_eq_getElem h]
  have hmid : (((dataOpt.getD []).getD i "") != "") = true ↔
      (∃ l v, dataOpt = some l ∧ l.get? i = some v ∧ v ≠ "") := by
    rcases dataOpt with _ | l
    · simp [List.getD]
    · simp only [Option.getD_some, bne_iff_ne, ne_eq, List.getD_eq_getElem?_getD]
      cases hv : l.get? i with
      | none =>
        simp only [List.get?_eq_getElem?] at hv
        simp [hv]
      | some v =>
        simp only [List.get?_eq_getElem?] at hv
        simp [hv]
  unfold isValidInputOrOutput
  rw [hd]
  constructor
  · intro hor
    rcases Bool.or_eq_true_iff.mp hor with hab | hc
    · rcases Bool.or_eq_true_iff.mp hab with ha | hb
      · exact Or.inl ha
      · exact Or.inr (Or.inl (hmid.mp hb))
    · rcases Bool.and_eq_true_iff.mp hc with ⟨he, hf⟩
      exact Or.inr (Or.inr ⟨by simpa using he, hf⟩)
  · intro hor
    apply Bool.or_eq_true_iff.mpr
    rcases hor with ha | hb | ⟨hc, hd2⟩
    · exact Or.inl (Bool.or_eq_true_iff.mpr (Or.inl ha))
    · exact Or.inl (Bool.or_eq_true_iff.mpr (Or.inr (hmid.mpr hb)))
    · exact Or.inr (Bool.and_eq_true_iff.mpr ⟨by simp [hc], hd2⟩)

/-- C7 witness: slot 0 of a one-element required descriptor list with the
value "x" supplied is valid. -/
theorem C7_slot_validity_witness :
    isValidInputOrOutput ["target"] (some ["x"]) 0 = true :=
  (C7_slot_validity ["target"] (some ["x"]) 0 (by decide)).mpr
    (Or.inr (Or.inl ⟨["x"], "x", rfl, rfl, by decide⟩))

/-- C5 evaluation: for a declared kind outside
float/int/string/enum/expr/json/bool (here `vec3`), `checkNodeArgValue`
emits the "unknown arg type" diagnostic but — since the branch never sets
`hasError` — still returns `true`, for every value and verbosity. -/
theorem C5_unknown_arg_type_eval (value : Option JsValue) (verbose : Bool) :
    checkNodeArgValue ⟨"1", "TestNode"⟩ ⟨"a", "vec3", none, none⟩ value verbose
      = (true, [.unknownArgType ⟨"1", "TestNode"⟩ "vec3"]) := rfl

/-- Fields of the on-disk compact node model apart from its children. -/
structure NMFields where
  id : Int
  name : String
  desc : Option String := none
  args : Option (List (String × JsValue)) := none
  input : Option (List String) := none
  output : Option (List String) := none
  debug : Option Bool := none
  disabled : Option Bool := none
  path : Option String := none
deriving DecidableEq, Repr

/-- The on-disk compact node model (`NodeModel` in `b3type`); `args`
objects become association lists preserving key order. -/
inductive NodeModel where
  | mk (f : NMFields) (children : Option (List NodeModel))

def NodeModel.f : NodeModel → NMFields
  | .mk f _ => f

def NodeModel.children : NodeModel → Option (List NodeModel)
  | .mk _ c => c

mutual
def NodeModel.size : NodeModel → Nat
  | .mk _ none => 1
  | .mk _ (some cs) => 1 + sizeML cs

def sizeML : List NodeModel → Nat
  | [] => 0
  | c :: r => c.size + sizeML r
end

/-- Fields of the enriched in-memory graph node apart from its children.
The source's `def` field is called `ndef` (`def` is a Lean keyword); the
source's optional `status?: number` is a `Nat` defaulting to `0`, the role
`undefined` plays in its truthiness tests, since it is always assigned
before it is read; the `size` field (a text-layout concern computed by
`calcTreeDataSize` from DOM font metrics) is not modelled — nothing in the
claims or in the functions below depends on it. -/
structure TGFields where
  id : String
  name : String
  desc : Option String := none
  args : Option (List (String × JsValue)) := none
  input : Option (List String) := none
  output : Option (List String) := none
  debug : Option Bool := none
  disabled : Option Bool := none
  path : Option String := none
  ndef : NodeDef
  status : Nat := 0
  parent : Option String := none
  lastModified : Option Nat := none
deriving DecidableEq, Repr

/-- The enriched in-memory graph node (`TreeGraphData` in `b3type`). -/
inductive TreeGraphData where
  | mk (f : TGFields) (children : Option (List TreeGraphData))

def TreeGraphData.f : TreeGraphData → TGFields
  | .mk f _ => f

def TreeGraphData.children : TreeGraphData → Option (List TreeGraphData)
  | .mk _ c => c

mutual
def TreeGraphData.size : TreeGraphData → Nat
  | .mk _ none => 1
  | .mk _ (some cs) => 1 + sizeTL cs

def sizeTL : List TreeGraphData → Nat
  | [] => 0
  | c :: r => c.size + sizeTL r
end

mutual
/-- Preorder (parent before children, siblings left to right) list of the
nodes of a tree. -/
def TreeGraphData.nodes : TreeGraphData → List TreeGraphData
  | .mk f none => [.mk f none]
  | .mk f (some cs) => .mk f (some cs) :: nodesTL cs

def nodesTL : List TreeGraphData → List TreeGraphData
  | [] => []
  | c :: r => c.nodes ++ nodesTL r
end

mutual
/-- Preorder list of the ids of a tree. -/
def TreeGraphData.idList : TreeGraphData → List String
  | .mk f none => [f.id]
  | .mk f (some cs) => f.id :: idListTL cs

def idListTL : List TreeGraphData → List String
  | [] => []
  | c :: r => c.idList ++ idListTL r
end

/-- `isSubtreeRoot(data)`: the node carries a truthy `path` and its id
differs from `"1"`. -/
def isSubtreeRoot (data : TreeGraphData) : Bool :=
  data.f.path.getD "" != "" && data.f.id != "1"

/-- The `StatusFlag` bit positions of the status bitmask. -/
def StatusFlag.SUCCESS : Nat := 2

def StatusFlag.FAILURE : Nat := 1

def StatusFlag.RUNNING : Nat := 0

def StatusFlag.SUCCESS_ZERO : Nat := 5

def StatusFlag.FAILURE_ZERO : Nat := 4

/-- `toStatusFlag(data)`: bits contributed by the node's own declared
outcomes. The source passes the whole node and reads `data.def.status`;
the resolved definition is passed here directly. -/
def toStatusFlag (ndef : NodeDef) : Nat :=
  (ndef.status.getD []).foldl
    (fun status s =>
      match s with
      | "success" => status ||| (1 <<< StatusFlag.SUCCESS)
      | "failure" => status ||| (1 <<< StatusFlag.FAILURE)
      | "running" => status ||| (1 <<< StatusFlag.RUNNING)
      | _ => status)
    0

/-- `appendStatusFlag(status, childStatus)`: fold one enabled child's status
into the aggregate, tracking in `SUCCESS_ZERO` / `FAILURE_ZERO` whether
some appended child lacks the corresponding outcome. -/
def appendStatusFlag (status childStatus : Nat) : Nat :=
  let childSuccess := (childStatus >>> StatusFlag.SUCCESS) &&& 1
  let childFailure := (childStatus >>> StatusFlag.FAILURE) &&& 1
  let s1 := if childSuccess == 0 then status ||| (1 <<< StatusFlag.SUCCESS_ZERO) else status
  let s2 := if childFailure == 0 then s1 ||| (1 <<< StatusFlag.FAILURE_ZERO) else s1
  s2 ||| childStatus

/-- One composition directive of `buildStatusFlag`'s switch. JS `&= ~mask`
is 32-bit, rendered as `&&& (2^32 - 1 ^^^ mask)`. -/
def statusDirStep (childStatus : Nat) (status : Nat) (s : String) : Nat :=
  let childSuccess := (childStatus >>> StatusFlag.SUCCESS) &&& 1
  let childFailure := (childStatus >>> StatusFlag.FAILURE) &&& 1
  let childRunning := (childStatus >>> StatusFlag.RUNNING) &&& 1
  let childHasZeroSuccess := (childStatus >>> StatusFlag.SUCCESS_ZERO) &&& 1
  let childHasZeroFailure := (childStatus >>> StatusFlag.FAILURE_ZERO) &&& 1
  match s with
  | "!success" => status ||| (childFailure <<< StatusFlag.SUCCESS)
  | "!failure" => status ||| (childSuccess <<< StatusFlag.FAILURE)
  | "|success" => status ||| (childSuccess <<< StatusFlag.SUCCESS)
  | "|failure" => status ||| (childFailure <<< StatusFlag.FAILURE)
  | "|running" => status ||| (childRunning <<< StatusFlag.RUNNING)
  | "&success" =>
      if childHasZeroSuccess == 1 then status &&& (4294967295 ^^^ (1 <<< StatusFlag.SUCCESS))
      else status ||| (childSuccess <<< StatusFlag.SUCCESS)
  | "&failure" =>
      if childHasZeroFailure == 1 then status &&& (4294967295 ^^^ (1 <<< StatusFlag.FAILURE))
      else status ||| (childFailure <<< StatusFlag.FAILURE)
  | _ => status

/-- `buildStatusFlag(data, childStatus)`: the node's final status. The
source mutates `data.status` starting from `data.status!`; here the current
status comes in and the new status goes out. -/
def buildStatusFlag (ndef : NodeDef) (status childStatus : Nat) : Nat :=
  if (ndef.status.getD []).length ≠ 0 then
    (ndef.status.getD []).foldl (statusDirStep childStatus) status
  else
    status ||| childStatus

mutual
/-- `refreshTreeDataId(data, id)`: assigns sequential decimal-string ids in
preorder and computes each node's status bitmask bottom-up; returns the
refreshed node and the next free id. The optional `id` argument (undefined
or 0 is replaced by 1, matching `if (!id) id = 1`) is a plain `Nat` here,
with `0` playing `undefined`. The source assigns `child.parent = data.id`
immediately before the recursive call on the child; the call never reads
nor writes its argument's own `parent` field, so the assignment is applied
to the call's result here (`refreshChildren`). -/
def refreshTreeDataId : TreeGraphData → Nat → TreeGraphData × Nat
  | .mk f cs, id0 =>
    let i := if id0 == 0 then 1 else id0
    let status := toStatusFlag f.ndef
    let f1 : TGFields := { f with id := natDec i, status := status }
    match cs with
    | none => (.mk f1 none, i + 1)
    | some children =>
      let r := refreshChildren children f1.id (i + 1) 0
      (.mk { f1 with status := buildStatusFlag f1.ndef f1.status r.2.2 } (some r.1), r.2.1)

def refreshChildren : List TreeGraphData → String → Nat → Nat → List TreeGraphData × Nat × Nat
  | [], _, i, acc => ([], i, acc)
  | c :: rest, pid, i, acc =>
    let r := refreshTreeDataId c i
    let c2 : TreeGraphData := .mk { r.1.f with parent := some pid } r.1.children
    let acc1 := if c2.f.status != 0 && !(c2.f.disabled.getD false) then
        appendStatusFlag acc c2.f.status
      else acc
    let r2 := refreshChildren rest pid r.2 acc1
    (c2 :: r2.1, r2.2.1, r2.2.2)
end

theorem digitChar_val : ∀ d, d < 10 → (digitChar d).toNat - 48 = d := by decide

theorem digitChar_ne_minus (d : Nat) : digitChar d ≠ '-' := by
  unfold digitChar; split <;> decide

theorem digitsVal_append_one (xs : List Char) (c : Char) :
    digitsVal (xs ++ [c]) = 10 * digitsVal xs + (c.toNat - 48) := by
  simp [digitsVal, List.foldl_append]

theorem digitsVal_natDecAux : ∀ fuel n, n < fuel → digitsVal (natDecAux fuel n) = n := by
  intro fuel
  induction fuel with
  | zero => intro n h; omega
  | succ f ih =>
    intro n h
    unfold natDecAux
    by_cases h10 : n < 10
    · simp [h10, digitsVal, digitChar_val n h10]
    · have hlt : n / 10 < f := by omega
      simp only [h10, if_false]
      rw [digitsVal_append_one, ih _ hlt, digitChar_val _ (Nat.mod_lt n (by omega))]
      omega

theorem natDecAux_mem : ∀ fuel n c, c ∈ natDecAux fuel n → ∃ d, c = digitChar d := by
  intro fuel
  induction fuel with
  | zero => intro n c h; simp [natDecAux] at h
  | succ f ih =>
    intro n c h
    unfold natDecAux at h
    by_cases h10 : n < 10
    · simp [h10] at h; exact ⟨n, h⟩
    · simp only [h10, if_false, List.mem_append, List.mem_singleton] at h
      rcases h with h | h
      · exact ih _ _ h
      · exact ⟨n % 10, h⟩

theorem natDecAux_ne_nil (fuel n : Nat) (h : 0 < fuel) : natDecAux fuel n ≠ [] := by
  cases fuel with
  | zero => omega
  | succ f =>
    unfold natDecAux
    by_cases h10 : n < 10 <;> simp [h10]

theorem jsNumber_natDec (n : Nat) : jsNumber (natDec n) = n := by
  unfold jsNumber natDec
  cases hl : natDecAux (n + 1) n with
  | nil => exact absurd hl (natDecAux_ne_nil _ _ (by omega))
  | cons c cs =>
    have hc : c ≠ '-' := by
      obtain ⟨d, hd⟩ := natDecAux_mem (n + 1) n c (by rw [hl]; exact List.mem_cons_self c cs)
      rw [hd]; exact digitChar_ne_minus d
    have hval : digitsVal (c :: cs) = n := by
      rw [← hl]; exact digitsVal_natDecAux _ _ (by omega)
    show (match (String.mk (c :: cs)).data with
      | '-' :: rest => -(digitsVal rest : Int)
      | l => (digitsVal l : Int)) = (n : Int)
    have : (String.mk (c :: cs)).data = c :: cs := rfl
    rw [this]
    split
    · rename_i rest heq
      cases heq
      exact absurd rfl hc
    · rw [hval]

theorem jsNumber_intDec (i : Int) : jsNumber (intDec i) = i := by
  unfold intDec
  by_cases hneg : i < 0
  · simp only [hneg, if_true]
    have hdata : ("-" ++ natDec i.natAbs).data = '-' :: (natDec i.natAbs).data := by
      rw [String.data_append]; rfl
    unfold jsNumber
    rw [hdata]
    show -(digitsVal (natDec i.natAbs).data : Int) = i
    have : (natDec i.natAbs).data = natDecAux (i.natAbs + 1) i.natAbs := rfl
    rw [this, digitsVal_natDecAux _ _ (by omega)]
    omega
  · simp only [hneg, if_false]
    rw [jsNumber_natDec]
    omega

theorem TreeGraphData.size_pos (t : TreeGraphData) : 0 < t.size := by
  obtain ⟨f, cs⟩ := t
  cases cs <;> simp [TreeGraphData.size]

theorem idList_reparent (t : TreeGraphData) (p : Option String) :
    (TreeGraphData.mk { t.f with parent := p } t.children).idList = t.idList := by
  obtain ⟨f, cs⟩ := t
  cases cs <;>
    simp [TreeGraphData.idList, TreeGraphData.f, TreeGraphData.children]

/-- Core lemma for C2: starting from any id `i ≥ 1`, `refreshTreeDataId`
assigns the decimal strings of `i, i+1, ..., i+size-1` in preorder and
returns `i + size`. -/
theorem refresh_id_spec : ∀ N, ∀ t : TreeGraphData, t.size ≤ N → ∀ i, 1 ≤ i →
    (refreshTreeDataId t i).1.idList = (List.range' i t.size).map natDec ∧
    (refreshTreeDataId t i).2 = i + t.size := by
  intro N
  induction N with
  | zero => intro t ht; exact absurd (Nat.lt_of_lt_of_le t.size_pos ht) (by omega)
  | succ N ih =>
    intro t ht i hi
    obtain ⟨f, cs⟩ := t
    have hne : (i == 0) = false := by simp; omega
    cases cs with
    | none =>
      simp [refreshTreeDataId, hne, TreeGraphData.idList, TreeGraphData.size, List.range'_one]
    | some children =>
      have hsz : sizeTL children ≤ N := by
        simp [TreeGraphData.size] at ht; omega
      have key : ∀ cs2 : List TreeGraphData, sizeTL cs2 ≤ N → ∀ pid j acc, 1 ≤ j →
          idListTL (refreshChildren cs2 pid j acc).1 =
            (List.range' j (sizeTL cs2)).map natDec ∧
          (refreshChildren cs2 pid j acc).2.1 = j + sizeTL cs2 := by
        intro cs2
        induction cs2 with
        | nil => intro _ pid j acc _; simp [refreshChildren, idListTL, sizeTL]
        | cons c rest ihc =>
          intro hsz2 pid j acc hj
          have hc : c.size ≤ N := by
            have := c.size_pos
            simp [sizeTL] at hsz2
            omega
          have hrest : sizeTL rest ≤ N := by
            have := c.size_pos
            simp [sizeTL] at hsz2
            omega
          obtain ⟨hid1, hcount1⟩ := ih c hc j hj
          have hih2 := fun acc2 => ihc hrest pid (refreshTreeDataId c j).2 acc2
            (by rw [hcount1]; omega)
          simp only [refreshChildren, idListTL]
          refine ⟨?_, ?_⟩
          · rw [idList_reparent, hid1, (hih2 _).1, hcount1, sizeTL,
              ← List.map_append, List.range'_append_1, Nat.add_comm (sizeTL rest) c.size]
          · rw [(hih2 _).2, hcount1, sizeTL]
            omega
      obtain ⟨hids, hcount⟩ := key children hsz (natDec i) (i + 1) 0 (by omega)
      refine ⟨?_, ?_⟩
      · simp only [refreshTreeDataId, hne, Bool.false_eq_true, if_false,
          TreeGraphData.idList, TreeGraphData.size]
        rw [hids, Nat.add_comm 1 (sizeTL children), List.range'_succ, List.map_cons]
      · simp only [refreshTreeDataId, hne, Bool.false_eq_true, if_false, TreeGraphData.size]
        rw [hcount]
        omega

theorem refresh_zero_eq_one (t : TreeGraphData) :
    refreshTreeDataId t 0 = refreshTreeDataId t 1 := by
  obtain ⟨f, cs⟩ := t
  cases cs <;> simp [refreshTreeDataId]

theorem natDec_injective : Function.Injective natDec := by
  intro a b h
  have ha := jsNumber_natDec a
  rw [h, jsNumber_natDec b] at ha
  exact_mod_cast ha.symm

/-- C2: for every tree of N nodes, `refreshTreeDataId` called on the root
(no id argument, modelled as 0) assigns as ids exactly the decimal strings
of 1..N, each used once, in depth-first parent-before-children order (the
preorder id list is the rendering of `[1, ..., N]` and has no duplicate),
and returns N + 1. -/
theorem C2_refresh_assigns_dense_ids (t : TreeGraphData) :
    (refreshTreeDataId t 0).1.idList = (List.range' 1 t.size).map natDec ∧
    (refreshTreeDataId t 0).1.idList.Nodup ∧
    (refreshTreeDataId t 0).2 = t.size + 1 := by
  obtain ⟨h1, h2⟩ := refresh_id_spec t.size t (Nat.le_refl _) 1 (Nat.le_refl _)
  rw [refresh_zero_eq_one]
  refine ⟨h1, ?_, by omega⟩
  rw [h1]
  exact (List.nodup_range' 1 t.size).map natDec_injective

theorem shiftand_one (x k : Nat) : (x >>> k) &&& 1 = if x.testBit k then 1 else 0 := by
  rw [Nat.and_one_is_mod, Nat.shiftRight_eq_div_pow, Nat.testBit_to_div_mod]
  rcases Nat.mod_two_eq_zero_or_one (x / 2 ^ k) with h | h <;> simp [h]

theorem testBit_high_of_lt {y : Nat} (i : Nat) (hi : 4 ≤ i) (hy : y < 16) :
    y.testBit i = false := by
  apply Nat.testBit_lt_two_pow
  calc y < 16 := hy
    _ = 2 ^ 4 := by norm_num
    _ ≤ 2 ^ i := Nat.pow_le_pow_right (by norm_num) hi

theorem or_testBit_high (a y i : Nat) (hi : 4 ≤ i) (hy : y < 16)
    (h : a.testBit i = false) : (a ||| y).testBit i = false := by
  rw [Nat.testBit_or, h, testBit_high_of_lt i hi hy]
  rfl

theorem shiftand_shift_lt_16 (x k j : Nat) (hj : j ≤ 2) :
    (((x >>> k) &&& 1) <<< j) < 16 := by
  rw [Nat.shiftLeft_eq, shiftand_one]
  have h4 : 2 ^ j ≤ 4 := by
    calc 2 ^ j ≤ 2 ^ 2 := Nat.pow_le_pow_right (by norm_num) hj
      _ = 4 := by norm_num
  rcases Bool.eq_false_or_eq_true (x.testBit k) with h | h <;> simp [h]
  omega

/-- Any single composition directive leaves the high tracking bits (4 and
above) of the status clear. -/
theorem statusDirStep_high_bits (cS s : Nat) (d : String) (i : Nat) (hi : 4 ≤ i)
    (h : s.testBit i = false) : (statusDirStep cS s d).testBit i = false := by
  unfold statusDirStep
  dsimp only
  split
  · exact or_testBit_high _ _ _ hi (shiftand_shift_lt_16 _ _ _ (by decide)) h
  · exact or_testBit_high _ _ _ hi (shiftand_shift_lt_16 _ _ _ (by decide)) h
  · exact or_testBit_high _ _ _ hi (shiftand_shift_lt_16 _ _ _ (by decide)) h
  · exact or_testBit_high _ _ _ hi (shiftand_shift_lt_16 _ _ _ (by decide)) h
  · exact or_testBit_high _ _ _ hi (shiftand_shift_lt_16 _ _ _ (by decide)) h
  · split
    · rw [Nat.testBit_and, h]; rfl
    · exact or_testBit_high _ _ _ hi (shiftand_shift_lt_16 _ _ _ (by decide)) h
  · split
    · rw [Nat.testBit_and, h]; rfl
    · exact or_testBit_high _ _ _ hi (shiftand_shift_lt_16 _ _ _ (by decide)) h
  · exact h

theorem statusFold_high_bits (ds : List String) (cS : Nat) (i : Nat) (hi : 4 ≤ i) :
    ∀ s, s.testBit i = false → (ds.foldl (statusDirStep cS) s).testBit i = false := by
  induction ds with
  | nil => intro s h; exact h
  | cons d rest ihr =>
    intro s h
    exact ihr _ (statusDirStep_high_bits cS s d i hi h)

theorem toStatusFlag_lt (ndef : NodeDef) : toStatusFlag ndef < 8 := by
  unfold toStatusFlag
  have key : ∀ l : List String, ∀ s : Nat, s < 8 →
      (l.foldl (fun status x =>
        match x with
        | "success" => status ||| (1 <<< StatusFlag.SUCCESS)
        | "failure" => status ||| (1 <<< StatusFlag.FAILURE)
        | "running" => status ||| (1 <<< StatusFlag.RUNNING)
        | _ => status) s) < 8 := by
    intro l
    induction l with
    | nil => intro s h; exact h
    | cons d rest ihr =>
      intro s h
      apply ihr
      have h4 : ∀ x : Nat, x < 8 → (x ||| 4) < 8 ∧ (x ||| 2) < 8 ∧ (x ||| 1) < 8 := by decide
      dsimp only
      split
      · exact (h4 s h).1
      · exact (h4 s h).2.1
      · exact (h4 s h).2.2
      · exact h
  exact key _ 0 (by norm_num)

/-- The final status of `buildStatusFlag` keeps the high tracking bits
clear whenever the definition declares composition directives, or the
children aggregate is zero. -/
theorem buildStatusFlag_high_bits (ndef : NodeDef) (st cS i : Nat) (hi : 4 ≤ i)
    (hs : st.testBit i = false)
    (hcond : ndef.status.getD [] ≠ [] ∨ cS = 0) :
    (buildStatusFlag ndef st cS).testBit i = false := by
  unfold buildStatusFlag
  by_cases hlen : (ndef.status.getD []).length ≠ 0
  · rw [if_pos hlen]
    exact statusFold_high_bits _ _ _ hi _ hs
  · rw [if_neg hlen]
    push_neg at hlen
    have hcs : cS = 0 := by
      rcases hcond with h | h
      · exact absurd (List.length_eq_zero.mp hlen) h
      · exact h
    rw [hcs]
    simpa using hs

theorem nodes_cases (f : TGFields) (cs : Option (List TreeGraphData)) :
    (TreeGraphData.mk f cs).nodes =
      TreeGraphData.mk f cs :: (match cs with | none => [] | some l => nodesTL l) := by
  cases cs <;> simp [TreeGraphData.nodes]

theorem self_mem_nodesTG (t : TreeGraphData) : t ∈ t.nodes := by
  obtain ⟨f, cs⟩ := t
  rw [nodes_cases]
  exact List.mem_cons_self _ _

theorem mem_nodes_reparent (t : TreeGraphData) (p : Option String) (n : TreeGraphData)
    (hn : n ∈ (TreeGraphData.mk { t.f with parent := p } t.children).nodes) :
    n = TreeGraphData.mk { t.f with parent := p } t.children ∨ n ∈ t.nodes := by
  obtain ⟨f, cs⟩ := t
  simp only [TreeGraphData.f, TreeGraphData.children] at hn ⊢
  rw [nodes_cases] at hn
  rcases List.mem_cons.mp hn with h | h
  · exact Or.inl h
  · right
    rw [nodes_cases]
    apply List.mem_cons_of_mem
    cases cs with
    | none => simp at h
    | some l => simpa using h

theorem refreshChildren_nil_iff (cs : List TreeGraphData) (pid : String) (i acc : Nat) :
    (refreshChildren cs pid i acc).1 = [] ↔ cs = [] := by
  cases cs with
  | nil => simp [refreshChildren]
  | cons c r => simp [refreshChildren]

/-- Core lemma for C4: after `refreshTreeDataId`, every node whose
definition declares composition directives, or whose refreshed child list
is empty, has all status bits at positions 4 and above clear. -/
theorem refresh_high_bits : ∀ N, ∀ t : TreeGraphData, t.size ≤ N → ∀ i,
    ∀ n ∈ (refreshTreeDataId t i).1.nodes,
      (n.f.ndef.status.getD [] ≠ [] ∨ n.children.getD [] = []) →
      ∀ k, 4 ≤ k → n.f.status.testBit k = false := by
  intro N
  induction N with
  | zero => intro t ht; exact absurd (Nat.lt_of_lt_of_le t.size_pos ht) (by omega)
  | succ N ih =>
    intro t ht i n hn hcond k hk
    obtain ⟨f, cs⟩ := t
    have hflag : ∀ j : Nat, (toStatusFlag f.ndef).testBit j = false ∨ j < 4 := by
      intro j
      by_cases hj : 4 ≤ j
      · exact Or.inl (testBit_high_of_lt j hj (Nat.lt_trans (toStatusFlag_lt _) (by norm_num)))
      · exact Or.inr (by omega)
    cases cs with
    | none =>
      simp only [refreshTreeDataId, TreeGraphData.nodes] at hn
      rcases List.mem_singleton.mp hn with rfl
      simp only [TreeGraphData.f]
      exact testBit_high_of_lt k hk (Nat.lt_trans (toStatusFlag_lt _) (by norm_num))
    | some children =>
      have hsz : sizeTL children ≤ N := by
        simp [TreeGraphData.size] at ht; omega
      have key : ∀ cs2 : List TreeGraphData, sizeTL cs2 ≤ N → ∀ pid j acc,
          ∀ m ∈ nodesTL (refreshChildren cs2 pid j acc).1,
            (m.f.ndef.status.getD [] ≠ [] ∨ m.children.getD [] = []) →
            m.f.status.testBit k = false := by
        intro cs2
        induction cs2 with
        | nil => intro _ pid j acc m hm; simp [refreshChildren, nodesTL] at hm
        | cons c rest ihc =>
          intro hsz2 pid j acc m hm hcondm
          have hc : c.size ≤ N := by
            have := c.size_pos
            simp [sizeTL] at hsz2
            omega
          have hrest : sizeTL rest ≤ N := by
            have := c.size_pos
            simp [sizeTL] at hsz2
            omega
          simp only [refreshChildren, nodesTL, List.mem_append] at hm
          rcases hm with hm | hm
          · rcases mem_nodes_reparent (refreshTreeDataId c j).1 (some pid) m hm with rfl | hm2
            · have hroot := ih c hc j (refreshTreeDataId c j).1
                (self_mem_nodesTG _)
                (by simpa only [TreeGraphData.f, TreeGraphData.children] using hcondm)
                k hk
              simpa only [TreeGraphData.f] using hroot
            · exact ih c hc j m hm2 hcondm k hk
          · exact ihc hrest pid (refreshTreeDataId c j).2 _ m hm hcondm
      simp only [refreshTreeDataId] at hn
      rw [nodes_cases] at hn
      rcases List.mem_cons.mp hn with rfl | hn2
      · simp only [TreeGraphData.f, TreeGraphData.children] at hcond ⊢
        apply buildStatusFlag_high_bits _ _ _ _ hk
        · exact testBit_high_of_lt k hk (Nat.lt_trans (toStatusFlag_lt _) (by norm_num))
        · rcases hcond with hcond | hcond
          · exact Or.inl hcond
          · right
            have hnil : children = [] :=
              (refreshChildren_nil_iff children _ _ 0).mp (by simpa using hcond)
            subst hnil
            simp [refreshChildren]
      · exact key children hsz _ _ 0 n (by simpa using hn2) hcond

/-- A leaf node with the given declared outcomes, for concrete trees. -/
def mkLeaf (nm : String) (sts : List String) : TreeGraphData :=
  .mk { id := "", name := nm, ndef := { name := nm, status := some sts } } none

/-- Concrete tree refuting C4: a parent with no composition directives and
one enabled success-declaring child. -/
def c4tree : TreeGraphData :=
  .mk { id := "", name := "P", ndef := { name := "P" } } (some [mkLeaf "S" ["success"]])

/-- C4 counterexample: after `refreshTreeDataId`, the parent of `c4tree`
stores status 20, in which the FAILURE_ZERO tracking bit (bit 4) is still
set — the no-directive branch of `buildStatusFlag` ORs the whole child
aggregate, tracking bits included, into the stored status. -/
theorem C4_counterexample :
    (refreshTreeDataId c4tree 0).1.f.status = 20 ∧
    Nat.testBit 20 StatusFlag.FAILURE_ZERO = true := by decide

/-- C4 amended: the SUCCESS_ZERO / FAILURE_ZERO tracking bits (positions 5
and 4) are clear in the final stored status of every node whose schema
declares composition directives, and of every node whose refreshed child
list is empty; a node with children but no declared directives may retain
them (see `C4_counterexample`). -/
theorem C4_tracking_bits_amended (t : TreeGraphData) (i : Nat) (n : TreeGraphData)
    (hn : n ∈ (refreshTreeDataId t i).1.nodes)
    (hcond : n.f.ndef.status.getD [] ≠ [] ∨ n.children.getD [] = []) :
    n.f.status.testBit StatusFlag.SUCCESS_ZERO = false ∧
    n.f.status.testBit StatusFlag.FAILURE_ZERO = false :=
  ⟨refresh_high_bits t.size t (Nat.le_refl _) i n hn hcond 5 (by norm_num),
   refresh_high_bits t.size t (Nat.le_refl _) i n hn hcond 4 (by norm_num)⟩

/-- Concrete tree for the C4 witness: an `&success` parent of one
success-declaring child. -/
def c4wtree : TreeGraphData :=
  .mk { id := "", name := "W", ndef := { name := "W", status := some ["&success"] } }
    (some [mkLeaf "S" ["success"]])

theorem C4_tracking_bits_amended_witness :
    (refreshTreeDataId c4wtree 0).1.f.status.testBit StatusFlag.SUCCESS_ZERO = false ∧
    (refreshTreeDataId c4wtree 0).1.f.status.testBit StatusFlag.FAILURE_ZERO = false :=
  C4_tracking_bits_amended c4wtree 0 (refreshTreeDataId c4wtree 0).1
    (self_mem_nodesTG _) (Or.inl (by decide))

theorem and_mask_other (s m i : Nat) (hm : m.testBit i = true) :
    (s &&& m).testBit i = s.testBit i := by
  rw [Nat.testBit_and, hm, Bool.and_true]

theorem and_mask_clear (s m i : Nat) (hm : m.testBit i = false) :
    (s &&& m).testBit i = false := by
  rw [Nat.testBit_and, hm, Bool.and_false]

theorem shiftand_shift_testBit (x k j i : Nat) (hij : i ≠ j) :
    ((((x >>> k) &&& 1) <<< j)).testBit i = false := by
  rw [shiftand_one]
  rcases h : x.testBit k with _ | _
  · simp [h]
  · simp only [h, if_true]
    rw [Nat.shiftLeft_eq, one_mul]
    exact Nat.testBit_two_pow_of_ne (Ne.symm hij)

theorem or_shiftand_testBit (a x k j i : Nat) (hij : i ≠ j) :
    (a ||| (((x >>> k) &&& 1) <<< j)).testBit i = a.testBit i := by
  rw [Nat.testBit_or, shiftand_shift_testBit x k j i hij, Bool.or_false]

theorem or_shiftand_testBit_self (a x k j : Nat) :
    (a ||| (((x >>> k) &&& 1) <<< j)).testBit j = (a.testBit j || x.testBit k) := by
  rw [Nat.testBit_or, shiftand_one]
  rcases h : x.testBit k with _ | _
  · simp
  · simp only [if_true]
    rw [Nat.shiftLeft_eq, one_mul, Nat.testBit_two_pow_self]

/-- A directive other than the three success-shaped ones never changes the
SUCCESS bit. -/
theorem stepBit2_other (cS s : Nat) (d : String) (h1 : d ≠ "!success")
    (h2 : d ≠ "|success") (h3 : d ≠ "&success") :
    (statusDirStep cS s d).testBit 2 = s.testBit 2 := by
  unfold statusDirStep
  dsimp only
  split
  · simp_all
  · exact or_shiftand_testBit s cS 2 1 2 (by norm_num)
  · simp_all
  · exact or_shiftand_testBit s cS 1 1 2 (by norm_num)
  · exact or_shiftand_testBit s cS 0 0 2 (by norm_num)
  · simp_all
  · split
    · exact and_mask_other _ _ _ (by decide)
    · exact or_shiftand_testBit s cS 1 1 2 (by norm_num)
  · rfl

/-- A directive other than the three failure-shaped ones never changes the
FAILURE bit. -/
theorem stepBit1_other (cS s : Nat) (d : String) (h1 : d ≠ "!failure")
    (h2 : d ≠ "|failure") (h3 : d ≠ "&failure") :
    (statusDirStep cS s d).testBit 1 = s.testBit 1 := by
  unfold statusDirStep
  dsimp only
  split
  · exact or_shiftand_testBit s cS 1 2 1 (by norm_num)
  · simp_all
  · exact or_shiftand_testBit s cS 2 2 1 (by norm_num)
  · simp_all
  · exact or_shiftand_testBit s cS 0 0 1 (by norm_num)
  · split
    · exact and_mask_other _ _ _ (by decide)
    · exact or_shiftand_testBit s cS 2 2 1 (by norm_num)
  · simp_all
  · rfl

/-- The `&success` directive either clears the SUCCESS bit (when some
aggregated child lacked success) or sets it from the aggregate. -/
theorem stepBit2_and (cS s : Nat) :
    (statusDirStep cS s "&success").testBit 2 =
      (if cS.testBit 5 then false else (s.testBit 2 || cS.testBit 2)) := by
  have hred : statusDirStep cS s "&success" =
      (if (cS >>> 5) &&& 1 == 1 then s &&& (4294967295 ^^^ (1 <<< 2))
       else s ||| (((cS >>> 2) &&& 1) <<< 2)) := rfl
  rcases h5 : cS.testBit 5 with _ | _
  · have hv : (cS >>> 5) &&& 1 = 0 := by rw [shiftand_one, h5]; rfl
    rw [hred, hv, if_neg (by decide), if_neg (by simp [h5])]
    exact or_shiftand_testBit_self s cS 2 2
  · have hv : (cS >>> 5) &&& 1 = 1 := by rw [shiftand_one, h5]; rfl
    rw [hred, hv, if_pos (by decide), if_pos (by simp [h5])]
    exact and_mask_clear _ _ _ (by decide)

/-- The `&failure` directive either clears the FAILURE bit (when some
aggregated child lacked failure) or sets it from the aggregate. -/
theorem stepBit1_and (cS s : Nat) :
    (statusDirStep cS s "&failure").testBit 1 =
      (if cS.testBit 4 then false else (s.testBit 1 || cS.testBit 1)) := by
  have hred : statusDirStep cS s "&failure" =
      (if (cS >>> 4) &&& 1 == 1 then s &&& (4294967295 ^^^ (1 <<< 1))
       else s ||| (((cS >>> 1) &&& 1) <<< 1)) := rfl
  rcases h4 : cS.testBit 4 with _ | _
  · have hv : (cS >>> 4) &&& 1 = 0 := by rw [shiftand_one, h4]; rfl
    rw [hred, hv, if_neg (by decide), if_neg (by simp [h4])]
    exact or_shiftand_testBit_self s cS 1 1
  · have hv : (cS >>> 4) &&& 1 = 1 := by rw [shiftand_one, h4]; rfl
    rw [hred, hv, if_pos (by decide), if_pos (by simp [h4])]
    exact and_mask_clear _ _ _ (by decide)

theorem foldBit2_noSuccess (cS : Nat) :
    ∀ ds : List String, "!success" ∉ ds → "|success" ∉ ds → "&success" ∉ ds →
    ∀ s, (ds.foldl (statusDirStep cS) s).testBit 2 = s.testBit 2 := by
  intro ds
  induction ds with
  | nil => intro _ _ _ s; rfl
  | cons d rest ihr =>
    intro h1 h2 h3 s
    simp only [List.mem_cons, not_or] at h1 h2 h3
    simp only [List.foldl_cons]
    rw [ihr h1.2 h2.2 h3.2, stepBit2_other cS s d (Ne.symm h1.1) (Ne.symm h2.1) (Ne.symm h3.1)]

theorem foldBit1_noFailure (cS : Nat) :
    ∀ ds : List String, "!failure" ∉ ds → "|failure" ∉ ds → "&failure" ∉ ds →
    ∀ s, (ds.foldl (statusDirStep cS) s).testBit 1 = s.testBit 1 := by
  intro ds
  induction ds with
  | nil => intro _ _ _ s; rfl
  | cons d rest ihr =>
    intro h1 h2 h3 s
    simp only [List.mem_cons, not_or] at h1 h2 h3
    simp only [List.foldl_cons]
    rw [ihr h1.2 h2.2 h3.2, stepBit1_other cS s d (Ne.symm h1.1) (Ne.symm h2.1) (Ne.symm h3.1)]

/-- Folding a directive list containing `&success` (and no other
success-shaped directive): the SUCCESS bit ends up cleared when the
aggregate carries SUCCESS_ZERO, else ORed with the aggregate SUCCESS. -/
theorem foldBit2_andSuccess (cS : Nat) :
    ∀ ds : List String, "&success" ∈ ds → "!success" ∉ ds → "|success" ∉ ds →
    ∀ s, (ds.foldl (statusDirStep cS) s).testBit 2 =
      (if cS.testBit 5 then false else (s.testBit 2 || cS.testBit 2)) := by
  intro ds
  induction ds with
  | nil => intro hmem; cases hmem
  | cons d rest ihr =>
    intro hmem h1 h2 s
    simp only [List.mem_cons, not_or] at h1 h2
    simp only [List.foldl_cons]
    by_cases hd : d = "&success"
    · subst hd
      by_cases hrest : "&success" ∈ rest
      · rw [ihr hrest h1.2 h2.2, stepBit2_and]
        rcases h5 : cS.testBit 5 with _ | _ <;> simp [h5, Bool.or_assoc]
      · rw [foldBit2_noSuccess cS rest h1.2 h2.2 hrest, stepBit2_and]
    · have hrest : "&success" ∈ rest := by
        rcases List.mem_cons.mp hmem with h | h
        · exact absurd h.symm hd
        · exact h
      rw [ihr hrest h1.2 h2.2, stepBit2_other cS s d (Ne.symm h1.1) (Ne.symm h2.1) hd]

/-- Failure-side analogue of `foldBit2_andSuccess`. -/
theorem foldBit1_andFailure (cS : Nat) :
    ∀ ds : List String, "&failure" ∈ ds → "!failure" ∉ ds → "|failure" ∉ ds →
    ∀ s, (ds.foldl (statusDirStep cS) s).testBit 1 =
      (if cS.testBit 4 then false else (s.testBit 1 || cS.testBit 1)) := by
  intro ds
  induction ds with
  | nil => intro hmem; cases hmem
  | cons d rest ihr =>
    intro hmem h1 h2 s
    simp only [List.mem_cons, not_or] at h1 h2
    simp only [List.foldl_cons]
    by_cases hd : d = "&failure"
    · subst hd
      by_cases hrest : "&failure" ∈ rest
      · rw [ihr hrest h1.2 h2.2, stepBit1_and]
        rcases h4 : cS.testBit 4 with _ | _ <;> simp [h4, Bool.or_assoc]
      · rw [foldBit1_noFailure cS rest h1.2 h2.2 hrest, stepBit1_and]
    · have hrest : "&failure" ∈ rest := by
        rcases List.mem_cons.mp hmem with h | h
        · exact absurd h.symm hd
        · exact h
      rw [ihr hrest h1.2 h2.2, stepBit1_other cS s d (Ne.symm h1.1) (Ne.symm h2.1) hd]

theorem or_testBit_eval (a y i : Nat) (hy : y.testBit i = false) :
    (a ||| y).testBit i = a.testBit i := by
  rw [Nat.testBit_or, hy, Bool.or_false]

theorem toStatusFlag_bit2 (ndef : NodeDef) (h : "success" ∉ ndef.status.getD []) :
    (toStatusFlag ndef).testBit 2 = false := by
  unfold toStatusFlag
  have key : ∀ l : List String, "success" ∉ l → ∀ s : Nat, s.testBit 2 = false →
      ((l.foldl (fun status x =>
        match x with
        | "success" => status ||| (1 <<< StatusFlag.SUCCESS)
        | "failure" => status ||| (1 <<< StatusFlag.FAILURE)
        | "running" => status ||| (1 <<< StatusFlag.RUNNING)
        | _ => status) s)).testBit 2 = false := by
    intro l
    induction l with
    | nil => intro _ s hs; exact hs
    | cons d rest ihr =>
      intro hmem s hs
      simp only [List.mem_cons, not_or] at hmem
      simp only [List.foldl_cons]
      apply ihr hmem.2
      dsimp only
      split
      · simp_all
      · rw [or_testBit_eval _ _ _ (by decide)]; exact hs
      · rw [or_testBit_eval _ _ _ (by decide)]; exact hs
      · exact hs
  exact key _ h 0 (by decide)

theorem toStatusFlag_bit1 (ndef : NodeDef) (h : "failure" ∉ ndef.status.getD []) :
    (toStatusFlag ndef).testBit 1 = false := by
  unfold toStatusFlag
  have key : ∀ l : List String, "failure" ∉ l → ∀ s : Nat, s.testBit 1 = false →
      ((l.foldl (fun status x =>
        match x with
        | "success" => status ||| (1 <<< StatusFlag.SUCCESS)
        | "failure" => status ||| (1 <<< StatusFlag.FAILURE)
        | "running" => status ||| (1 <<< StatusFlag.RUNNING)
        | _ => status) s)).testBit 1 = false := by
    intro l
    induction l with
    | nil => intro _ s hs; exact hs
    | cons d rest ihr =>
      intro hmem s hs
      simp only [List.mem_cons, not_or] at hmem
      simp only [List.foldl_cons]
      apply ihr hmem.2
      dsimp only
      split
      · rw [or_testBit_eval _ _ _ (by decide)]; exact hs
      · simp_all
      · rw [or_testBit_eval _ _ _ (by decide)]; exact hs
      · exact hs
  exact key _ h 0 (by decide)

theorem appendStatusFlag_bits : ∀ a < 64, ∀ s < 8,
    appendStatusFlag a s < 64 ∧
    ((appendStatusFlag a s).testBit 2 = (a.testBit 2 || s.testBit 2)) ∧
    ((appendStatusFlag a s).testBit 1 = (a.testBit 1 || s.testBit 1)) ∧
    ((appendStatusFlag a s).testBit 5 = (a.testBit 5 || !s.testBit 2)) ∧
    ((appendStatusFlag a s).testBit 4 = (a.testBit 4 || !s.testBit 1)) := by decide

/-- Bits of the child aggregate: ORs of the children's SUCCESS / FAILURE
bits, plus the ZERO-tracking bits recording a child lacking the outcome. -/
theorem aggFold_bits : ∀ sts : List Nat, (∀ x ∈ sts, x < 8) → ∀ acc, acc < 64 →
    (sts.foldl appendStatusFlag acc < 64) ∧
    ((sts.foldl appendStatusFlag acc).testBit 2 =
      (acc.testBit 2 || sts.any (fun x => x.testBit 2))) ∧
    ((sts.foldl appendStatusFlag acc).testBit 1 =
      (acc.testBit 1 || sts.any (fun x => x.testBit 1))) ∧
    ((sts.foldl appendStatusFlag acc).testBit 5 =
      (acc.testBit 5 || sts.any (fun x => !x.testBit 2))) ∧
    ((sts.foldl appendStatusFlag acc).testBit 4 =
      (acc.testBit 4 || sts.any (fun x => !x.testBit 1))) := by
  intro sts
  induction sts with
  | nil => intro _ acc hacc; simp [hacc]
  | cons x rest ihr =>
    intro hmem acc hacc
    have hx : x < 8 := hmem x (List.mem_cons_self _ _)
    have hrest : ∀ y ∈ rest, y < 8 := fun y hy => hmem y (List.mem_cons_of_mem _ hy)
    obtain ⟨hlt, h2, h1, h5, h4⟩ := appendStatusFlag_bits acc hacc x hx
    obtain ⟨ihlt, ih2, ih1, ih5, ih4⟩ := ihr hrest (appendStatusFlag acc x) hlt
    simp only [List.foldl_cons, List.any_cons]
    refine ⟨ihlt, ?_, ?_, ?_, ?_⟩
    · rw [ih2, h2, Bool.or_assoc]
    · rw [ih1, h1, Bool.or_assoc]
    · rw [ih5, h5, Bool.or_assoc]
    · rw [ih4, h4, Bool.or_assoc]

/-- A node's own declared-outcome bitmask. -/
def ownStatus (c : TreeGraphData) : Nat := toStatusFlag c.f.ndef

/-- The aggregation guard of `refreshChildren` phrased on an unrefreshed
leaf child: its own status is nonzero and it is not disabled. -/
def enabledNonzeroPred (c : TreeGraphData) : Bool :=
  ownStatus c != 0 && !(c.f.disabled.getD false)

/-- The enabled, non-disabled children with a nonzero aggregated status:
exactly those whose statuses `refreshTreeDataId` folds into the aggregate
when the children are leaves. -/
def enabledNonzero (cs : List TreeGraphData) : List TreeGraphData :=
  cs.filter enabledNonzeroPred

/-- On leaf children, the aggregate accumulated by `refreshChildren` is the
`appendStatusFlag` fold of the enabled nonzero children's own statuses. -/
theorem refreshChildren_leaf_agg (cs : List TreeGraphData)
    (hleaf : ∀ c ∈ cs, c.children = none) :
    ∀ pid j acc, (refreshChildren cs pid j acc).2.2 =
      ((enabledNonzero cs).map ownStatus).foldl appendStatusFlag acc := by
  induction cs with
  | nil => intro pid j acc; simp [refreshChildren, enabledNonzero]
  | cons c rest ihr =>
    intro pid j acc
    obtain ⟨cf, ccs⟩ := c
    have hc : ccs = none := by
      have := hleaf _ (List.mem_cons_self _ _)
      simpa [TreeGraphData.children] using this
    subst hc
    have hrest : ∀ c2 ∈ rest, c2.children = none :=
      fun c2 hc2 => hleaf c2 (List.mem_cons_of_mem _ hc2)
    have hstep : (refreshChildren (TreeGraphData.mk cf none :: rest) pid j acc).2.2 =
        (refreshChildren rest pid ((if j == 0 then 1 else j) + 1)
          (if toStatusFlag cf.ndef != 0 && !(cf.disabled.getD false)
           then appendStatusFlag acc (toStatusFlag cf.ndef) else acc)).2.2 := rfl
    have hown : ownStatus (TreeGraphData.mk cf none) = toStatusFlag cf.ndef := rfl
    have hpred : enabledNonzeroPred (TreeGraphData.mk cf none) =
        (toStatusFlag cf.ndef != 0 && !(cf.disabled.getD false)) := rfl
    rw [hstep, ihr hrest]
    simp only [enabledNonzero]
    rw [List.filter_cons, hpred]
    by_cases hcnd : (toStatusFlag cf.ndef != 0 && !(cf.disabled.getD false)) = true
    · rw [if_pos hcnd, if_pos hcnd, List.map_cons, hown, List.foldl_cons]
    · rw [if_neg hcnd, if_neg hcnd]

theorem if_any_decide (sts : List Nat) (i : Nat) :
    (if sts.any (fun x => !x.testBit i) then false
     else sts.any (fun x => x.testBit i)) =
      decide (sts ≠ [] ∧ ∀ x ∈ sts, x.testBit i = true) := by
  by_cases hany : sts.any (fun x => !x.testBit i) = true
  · rw [if_pos hany]
    obtain ⟨x, hx, hbx⟩ := List.any_eq_true.mp hany
    have hnall : ¬ (sts ≠ [] ∧ ∀ y ∈ sts, y.testBit i = true) := by
      rintro ⟨_, hall⟩
      rw [hall x hx] at hbx
      simp at hbx
    simp [hnall]
  · rw [if_neg hany]
    have hall : ∀ x ∈ sts, x.testBit i = true := by
      intro x hx
      by_contra hc
      exact hany (List.any_eq_true.mpr ⟨x, hx, by simp [Bool.eq_false_iff.mpr hc]⟩)
    cases sts with
    | nil => simp
    | cons x rest =>
      have hx := hall x (List.mem_cons_self _ _)
      rw [decide_eq_true (show x :: rest ≠ [] ∧ ∀ y ∈ x :: rest, y.testBit i = true
        from ⟨by simp, hall⟩)]
      simp [List.any_cons, hx]

/-- Concrete tree refuting C3: an `&success` parent with two enabled
children, one success-declaring, one declaring nothing (status 0). -/
def c3tree : TreeGraphData :=
  .mk { id := "", name := "P", ndef := { name := "P", status := some ["&success"] } }
    (some [mkLeaf "S" ["success"], mkLeaf "Z" []])

/-- C3 counterexample: after refresh, the `&success` parent of `c3tree` has
its SUCCESS bit SET although its second child is enabled, not disabled and
cannot succeed — zero-status children are skipped by the aggregation guard
`child.status && !child.disabled`, so SUCCESS_ZERO is never set for them. -/
theorem C3_counterexample :
    (refreshTreeDataId c3tree 0).1.f.status.testBit StatusFlag.SUCCESS = true ∧
    (mkLeaf "Z" []).f.disabled.getD false = false ∧
    (toStatusFlag (mkLeaf "Z" []).f.ndef).testBit StatusFlag.SUCCESS = false := by decide

/-- Emptiness of a list is decidable without decidable equality of the
elements (needed because `TreeGraphData` equality is not derived). -/
instance listEqNilDecidable {α : Type _} (l : List α) : Decidable (l = []) :=
  match l with
  | [] => Decidable.isTrue rfl
  | _ :: _ => Decidable.isFalse (fun h => List.noConfusion h)

/-- The stored status bitmask of a (refreshed) graph node. -/
def storedStatus (c : TreeGraphData) : Nat := c.f.status

/-- The aggregation guard of `refreshTreeDataId` on a refreshed child:
`child.status && !child.disabled` under JS truthiness. -/
def storedEnabledPred (c : TreeGraphData) : Bool :=
  c.f.status != 0 && !(c.f.disabled.getD false)

/-- The children passing the aggregation guard: enabled (not disabled) and
of nonzero stored status — zero-status children are skipped by the guard
(see `C3_counterexample`). -/
def storedEnabled (ds : List TreeGraphData) : List TreeGraphData :=
  ds.filter storedEnabledPred

/-- The children aggregate recomputed from a refreshed child list: the
`appendStatusFlag` fold of the stored statuses of the guard-passing
children, exactly what `refreshTreeDataId` accumulates for
`buildStatusFlag`. -/
def childAggregate (ds : List TreeGraphData) : Nat :=
  ((storedEnabled ds).map storedStatus).foldl appendStatusFlag 0

theorem two_pow_testBit (n i : Nat) : (1 <<< n).testBit i = decide (i = n) := by
  rw [Nat.one_shiftLeft]
  by_cases h : i = n
  · subst h
    simp [Nat.testBit_two_pow_self]
  · rw [Nat.testBit_two_pow_of_ne (Ne.symm h)]
    simp [h]

/-- All bits of `appendStatusFlag` over arbitrary (unbounded) child
statuses: the child's own bits are ORed in, and the ZERO-tracking bits
additionally record a child lacking SUCCESS (resp. FAILURE). -/
theorem appendStatusFlag_testBit (a s i : Nat) :
    (appendStatusFlag a s).testBit i =
      (((a.testBit i || (decide (i = 5) && !s.testBit 2)) ||
        (decide (i = 4) && !s.testBit 1)) || s.testBit i) := by
  have hm2 : s >>> StatusFlag.SUCCESS % 2 = (if s.testBit 2 then 1 else 0) := by
    rw [← Nat.and_one_is_mod]
    exact shiftand_one s 2
  have hm1 : s >>> StatusFlag.FAILURE % 2 = (if s.testBit 1 then 1 else 0) := by
    rw [← Nat.and_one_is_mod]
    exact shiftand_one s 1
  have h32 : ∀ k : Nat, Nat.testBit 32 k = decide (k = 5) := fun k => two_pow_testBit 5 k
  have h16 : ∀ k : Nat, Nat.testBit 16 k = decide (k = 4) := fun k => two_pow_testBit 4 k
  rcases hb2 : s.testBit 2 with _ | _ <;> rcases hb1 : s.testBit 1 with _ | _ <;>
      simp [appendStatusFlag, hm2, hm1, hb2, hb1, Nat.testBit_or, two_pow_testBit, h32, h16,
        StatusFlag.SUCCESS_ZERO, StatusFlag.FAILURE_ZERO,
        Bool.or_assoc, Bool.or_comm, Bool.or_left_comm]

/-- Bits of the children aggregate over arbitrary child statuses: the
outcome bits are ORs of the children's outcome bits, and each ZERO bit is
set when some child lacks the outcome or itself carries that ZERO bit. -/
theorem aggFold_or : ∀ (sts : List Nat) (acc : Nat),
    ((sts.foldl appendStatusFlag acc).testBit 2 =
      (acc.testBit 2 || sts.any (fun x => x.testBit 2))) ∧
    ((sts.foldl appendStatusFlag acc).testBit 1 =
      (acc.testBit 1 || sts.any (fun x => x.testBit 1))) ∧
    ((sts.foldl appendStatusFlag acc).testBit 5 =
      (acc.testBit 5 || sts.any (fun x => !x.testBit 2 || x.testBit 5))) ∧
    ((sts.foldl appendStatusFlag acc).testBit 4 =
      (acc.testBit 4 || sts.any (fun x => !x.testBit 1 || x.testBit 4))) := by
  intro sts
  induction sts with
  | nil => intro acc; simp
  | cons x rest ihr =>
    intro acc
    obtain ⟨ih2, ih1, ih5, ih4⟩ := ihr (appendStatusFlag acc x)
    simp only [List.foldl_cons, List.any_cons]
    refine ⟨?_, ?_, ?_, ?_⟩
    · rw [ih2, appendStatusFlag_testBit]
      simp [Bool.or_assoc]
    · rw [ih1, appendStatusFlag_testBit]
      simp [Bool.or_assoc]
    · rw [ih5, appendStatusFlag_testBit]
      simp [Bool.or_assoc]
    · rw [ih4, appendStatusFlag_testBit]
      simp [Bool.or_assoc]

/-- The aggregate returned by `refreshChildren` is the `appendStatusFlag`
fold of the stored statuses of its output children that pass the
`child.status && !child.disabled` guard. -/
theorem refreshChildren_agg : ∀ (cs : List TreeGraphData) (pid : String) (j acc : Nat),
    (refreshChildren cs pid j acc).2.2 =
      ((storedEnabled (refreshChildren cs pid j acc).1).map storedStatus).foldl
        appendStatusFlag acc := by
  intro cs
  induction cs with
  | nil => intro pid j acc; rfl
  | cons c rest ihr =>
    intro pid j acc
    have hstep : (refreshChildren (c :: rest) pid j acc).2.2 =
        (refreshChildren rest pid (refreshTreeDataId c j).2
          (if (refreshTreeDataId c j).1.f.status != 0 &&
              !((refreshTreeDataId c j).1.f.disabled.getD false)
           then appendStatusFlag acc (refreshTreeDataId c j).1.f.status
           else acc)).2.2 := rfl
    have hlist : (refreshChildren (c :: rest) pid j acc).1 =
        (TreeGraphData.mk { (refreshTreeDataId c j).1.f with parent := some pid }
          (refreshTreeDataId c j).1.children) ::
        (refreshChildren rest pid (refreshTreeDataId c j).2
          (if (refreshTreeDataId c j).1.f.status != 0 &&
              !((refreshTreeDataId c j).1.f.disabled.getD false)
           then appendStatusFlag acc (refreshTreeDataId c j).1.f.status
           else acc)).1 := rfl
    have hpred : storedEnabledPred (TreeGraphData.mk
        { (refreshTreeDataId c j).1.f with parent := some pid }
        (refreshTreeDataId c j).1.children) =
        ((refreshTreeDataId c j).1.f.status != 0 &&
         !((refreshTreeDataId c j).1.f.disabled.getD false)) := rfl
    rw [hstep, ihr, hlist]
    simp only [storedEnabled]
    rw [List.filter_cons, hpred]
    by_cases hc : ((refreshTreeDataId c j).1.f.status != 0 &&
        !((refreshTreeDataId c j).1.f.disabled.getD false)) = true
    · rw [if_pos hc, if_pos hc, List.map_cons, List.foldl_cons]
      rfl
    · rw [if_neg hc, if_neg hc]

/-- Invariant of `refreshTreeDataId`: every node of the refreshed tree that
carries a child list stores `buildStatusFlag` of its own declared bits and
the aggregate of its refreshed children's stored statuses. -/
theorem refresh_status_inv : ∀ N, ∀ t : TreeGraphData, t.size ≤ N → ∀ i,
    ∀ n ∈ (refreshTreeDataId t i).1.nodes, ∀ ds, n.children = some ds →
      n.f.status = buildStatusFlag n.f.ndef (toStatusFlag n.f.ndef) (childAggregate ds) := by
  intro N
  induction N with
  | zero => intro t ht; exact absurd (Nat.lt_of_lt_of_le t.size_pos ht) (by omega)
  | succ N ih =>
    intro t ht i n hn ds hds
    obtain ⟨f, cs⟩ := t
    cases cs with
    | none =>
      simp only [refreshTreeDataId, TreeGraphData.nodes] at hn
      rcases List.mem_singleton.mp hn with rfl
      simp only [TreeGraphData.children] at hds
      exact Option.noConfusion hds
    | some children =>
      have hsz : sizeTL children ≤ N := by
        simp [TreeGraphData.size] at ht; omega
      have key : ∀ cs2 : List TreeGraphData, sizeTL cs2 ≤ N → ∀ pid j acc,
          ∀ m ∈ nodesTL (refreshChildren cs2 pid j acc).1, ∀ dsm, m.children = some dsm →
            m.f.status = buildStatusFlag m.f.ndef (toStatusFlag m.f.ndef)
              (childAggregate dsm) := by
        intro cs2
        induction cs2 with
        | nil => intro _ pid j acc m hm; simp [refreshChildren, nodesTL] at hm
        | cons c rest ihc =>
          intro hsz2 pid j acc m hm dsm hdsm
          have hc : c.size ≤ N := by
            have := c.size_pos
            simp [sizeTL] at hsz2
            omega
          have hrest : sizeTL rest ≤ N := by
            have := c.size_pos
            simp [sizeTL] at hsz2
            omega
          simp only [refreshChildren, nodesTL, List.mem_append] at hm
          rcases hm with hm | hm
          · rcases mem_nodes_reparent (refreshTreeDataId c j).1 (some pid) m hm with rfl | hm2
            · have hroot := ih c hc j (refreshTreeDataId c j).1 (self_mem_nodesTG _) dsm
                (by simpa only [TreeGraphData.children] using hdsm)
              simpa only [TreeGraphData.f] using hroot
            · exact ih c hc j m hm2 dsm hdsm
          · exact ihc hrest pid (refreshTreeDataId c j).2 _ m hm dsm hdsm
      simp only [refreshTreeDataId] at hn
      rw [nodes_cases] at hn
      rcases List.mem_cons.mp hn with rfl | hn2
      · simp only [TreeGraphData.children] at hds
        obtain rfl := Option.some.inj hds
        show buildStatusFlag f.ndef (toStatusFlag f.ndef)
            (refreshChildren children (natDec (if i == 0 then 1 else i))
              ((if i == 0 then 1 else i) + 1) 0).2.2 =
          buildStatusFlag f.ndef (toStatusFlag f.ndef)
            (childAggregate (refreshChildren children (natDec (if i == 0 then 1 else i))
              ((if i == 0 then 1 else i) + 1) 0).1)
        rw [refreshChildren_agg]
        rfl
      · exact key children hsz _ _ 0 n (by simpa using hn2) ds hds

/-- The `|failure` directive ORs the aggregate FAILURE bit into the own
FAILURE bit. -/
theorem stepBit1_or (cS s : Nat) :
    (statusDirStep cS s "|failure").testBit 1 = (s.testBit 1 || cS.testBit 1) := by
  have hred : statusDirStep cS s "|failure" = s ||| (((cS >>> 1) &&& 1) <<< 1) := rfl
  rw [hred]
  exact or_shiftand_testBit_self s cS 1 1

/-- Folding a directive list containing `|failure` (and no other
FAILURE-shaped directive): the FAILURE bit ends up ORed with the aggregate
FAILURE bit. -/
theorem foldBit1_orFailure (cS : Nat) :
    ∀ ds : List String, "|failure" ∈ ds → "!failure" ∉ ds → "&failure" ∉ ds →
    ∀ s, (ds.foldl (statusDirStep cS) s).testBit 1 = (s.testBit 1 || cS.testBit 1) := by
  intro ds
  induction ds with
  | nil => intro hmem; cases hmem
  | cons d rest ihr =>
    intro hmem h1 h2 s
    simp only [List.mem_cons, not_or] at h1 h2
    simp only [List.foldl_cons]
    by_cases hd : d = "|failure"
    · subst hd
      by_cases hrest : "|failure" ∈ rest
      · rw [ihr hrest h1.2 h2.2, stepBit1_or]
        simp [Bool.or_assoc]
      · rw [foldBit1_noFailure cS rest h1.2 hrest h2.2, stepBit1_or]
    · have hrest : "|failure" ∈ rest := by
        rcases List.mem_cons.mp hmem with h | h
        · exact absurd h.symm hd
        · exact h
      rw [ihr hrest h1.2 h2.2, stepBit1_other cS s d (Ne.symm h1.1) hd (Ne.symm h2.1)]

/-- The `&`-directive if-expression as a decidable predicate: the bit ends
up set iff the list is nonempty and every element has the outcome bit set
and the corresponding ZERO bit clear. -/
theorem if_any_decideZ (sts : List Nat) (i z : Nat) :
    (if sts.any (fun x => !x.testBit i || x.testBit z) then false
     else sts.any (fun x => x.testBit i)) =
      decide (sts ≠ [] ∧ ∀ x ∈ sts, x.testBit i = true ∧ x.testBit z = false) := by
  by_cases hany : sts.any (fun x => !x.testBit i || x.testBit z) = true
  · rw [if_pos hany]
    obtain ⟨x, hx, hbx⟩ := List.any_eq_true.mp hany
    have hnall : ¬ (sts ≠ [] ∧ ∀ y ∈ sts, y.testBit i = true ∧ y.testBit z = false) := by
      rintro ⟨_, hall⟩
      obtain ⟨hyi, hyz⟩ := hall x hx
      rw [hyi, hyz] at hbx
      simp at hbx
    simp [hnall]
  · rw [if_neg hany]
    have hall : ∀ x ∈ sts, x.testBit i = true ∧ x.testBit z = false := by
      intro x hx
      constructor
      · by_contra hc
        refine hany (List.any_eq_true.mpr ⟨x, hx, ?_⟩)
        rw [Bool.eq_false_iff.mpr hc]
        rfl
      · by_contra hc
        refine hany (List.any_eq_true.mpr ⟨x, hx, ?_⟩)
        rw [Bool.ne_false_iff.mp hc]
        simp
    cases sts with
    | nil => simp
    | cons x rest =>
      obtain ⟨hxi, _⟩ := hall x (List.mem_cons_self _ _)
      rw [decide_eq_true (show x :: rest ≠ [] ∧ ∀ y ∈ x :: rest,
        y.testBit i = true ∧ y.testBit z = false from ⟨by simp, hall⟩)]
      simp [List.any_cons, hxi]

/-- A bit of the guard-passing children's statuses is ORed over exactly the
enabled children: a zero-status child contributes `false` either way. -/
theorem any_storedEnabled_bit (ds : List TreeGraphData) (i : Nat) :
    ((storedEnabled ds).map storedStatus).any (fun x => x.testBit i) =
      ds.any (fun c => !(c.f.disabled.getD false) && (storedStatus c).testBit i) := by
  induction ds with
  | nil => rfl
  | cons c rest ih =>
    simp only [storedEnabled, List.filter_cons] at ih ⊢
    by_cases hz : c.f.status = 0
    · have hp : ¬ storedEnabledPred c = true := by
        simp [storedEnabledPred, hz]
      have hh : (!(c.f.disabled.getD false) && (storedStatus c).testBit i) = false := by
        simp [storedStatus, hz]
      rw [if_neg hp, List.any_cons, hh, Bool.false_or]
      exact ih
    · by_cases hdis : (c.f.disabled.getD false) = true
      · have hp : ¬ storedEnabledPred c = true := by
          simp [storedEnabledPred, hdis]
        have hh : (!(c.f.disabled.getD false) && (storedStatus c).testBit i) = false := by
          simp [hdis]
        rw [if_neg hp, List.any_cons, hh, Bool.false_or]
        exact ih
      · have hdis2 : (c.f.disabled.getD false) = false := Bool.eq_false_iff.mpr hdis
        have hp : storedEnabledPred c = true := by
          simp [storedEnabledPred, hdis2, bne_iff_ne]
          exact hz
        rw [if_pos hp, List.map_cons, List.any_cons, List.any_cons, hdis2]
        simp only [Bool.not_false, Bool.true_and]
        rw [ih]

/-- C3 amended: after `refreshTreeDataId`, for every node of the refreshed
tree carrying a child list: when the directive list contains `&success` and
no other SUCCESS-writing directive, the stored SUCCESS bit is set iff the
children passing the aggregation guard (`child.status && !child.disabled`,
which skips zero-status children — see `C3_counterexample`) are nonempty
and every one of them has its SUCCESS bit set and its SUCCESS_ZERO
tracking bit clear; symmetrically for `&failure` with FAILURE and
FAILURE_ZERO; and when the list contains `|failure` and no other
FAILURE-writing directive, the stored FAILURE bit is set iff some enabled
child's stored status carries FAILURE — so a `["&success", "|failure"]`
node ends with its FAILURE bit set whenever some enabled child can fail. -/
theorem C3_and_directive_amended (t : TreeGraphData) (i : Nat) :
    ∀ n ∈ (refreshTreeDataId t i).1.nodes, ∀ ds, n.children = some ds →
    ("&success" ∈ n.f.ndef.status.getD [] →
     "!success" ∉ n.f.ndef.status.getD [] →
     "|success" ∉ n.f.ndef.status.getD [] →
     "success" ∉ n.f.ndef.status.getD [] →
      n.f.status.testBit StatusFlag.SUCCESS =
        decide (storedEnabled ds ≠ [] ∧ ∀ c ∈ storedEnabled ds,
          (storedStatus c).testBit StatusFlag.SUCCESS = true ∧
          (storedStatus c).testBit StatusFlag.SUCCESS_ZERO = false)) ∧
    ("&failure" ∈ n.f.ndef.status.getD [] →
     "!failure" ∉ n.f.ndef.status.getD [] →
     "|failure" ∉ n.f.ndef.status.getD [] →
     "failure" ∉ n.f.ndef.status.getD [] →
      n.f.status.testBit StatusFlag.FAILURE =
        decide (storedEnabled ds ≠ [] ∧ ∀ c ∈ storedEnabled ds,
          (storedStatus c).testBit StatusFlag.FAILURE = true ∧
          (storedStatus c).testBit StatusFlag.FAILURE_ZERO = false)) ∧
    ("|failure" ∈ n.f.ndef.status.getD [] →
     "!failure" ∉ n.f.ndef.status.getD [] →
     "&failure" ∉ n.f.ndef.status.getD [] →
     "failure" ∉ n.f.ndef.status.getD [] →
      n.f.status.testBit StatusFlag.FAILURE =
        ds.any (fun c => !(c.f.disabled.getD false) &&
          (storedStatus c).testBit StatusFlag.FAILURE)) := by
  intro n hn ds hds
  have hstat := refresh_status_inv t.size t (Nat.le_refl _) i n hn ds hds
  have hca : childAggregate ds =
      ((storedEnabled ds).map storedStatus).foldl appendStatusFlag 0 := rfl
  obtain ⟨hg2, hg1, hg5, hg4⟩ := aggFold_or ((storedEnabled ds).map storedStatus) 0
  refine ⟨?_, ?_, ?_⟩
  · intro hmem h1 h2 h3
    have hlen : (n.f.ndef.status.getD []).length ≠ 0 := by
      intro h0
      rw [List.length_eq_zero.mp h0] at hmem
      exact List.not_mem_nil _ hmem
    have hfold : n.f.status =
        (n.f.ndef.status.getD []).foldl (statusDirStep (childAggregate ds))
          (toStatusFlag n.f.ndef) := by
      rw [hstat]
      unfold buildStatusFlag
      rw [if_pos hlen]
    show n.f.status.testBit 2 = _
    rw [hfold, foldBit2_andSuccess _ _ hmem h1 h2, toStatusFlag_bit2 n.f.ndef h3]
    simp only [Bool.false_or]
    rw [hca, hg5, hg2]
    simp only [Nat.zero_testBit, Bool.false_or]
    rw [if_any_decideZ, decide_eq_decide]
    constructor
    · rintro ⟨hne, hall⟩
      refine ⟨fun h0 => hne (by rw [h0]; rfl), ?_⟩
      intro c hc
      exact hall _ (List.mem_map.mpr ⟨c, hc, rfl⟩)
    · rintro ⟨hne, hall⟩
      refine ⟨fun h0 => hne (List.map_eq_nil_iff.mp h0), ?_⟩
      intro x hx
      obtain ⟨c, hc, rfl⟩ := List.mem_map.mp hx
      exact hall c hc
  · intro hmem h1 h2 h3
    have hlen : (n.f.ndef.status.getD []).length ≠ 0 := by
      intro h0
      rw [List.length_eq_zero.mp h0] at hmem
      exact List.not_mem_nil _ hmem
    have hfold : n.f.status =
        (n.f.ndef.status.getD []).foldl (statusDirStep (childAggregate ds))
          (toStatusFlag n.f.ndef) := by
      rw [hstat]
      unfold buildStatusFlag
      rw [if_pos hlen]
    show n.f.status.testBit 1 = _
    rw [hfold, foldBit1_andFailure _ _ hmem h1 h2, toStatusFlag_bit1 n.f.ndef h3]
    simp only [Bool.false_or]
    rw [hca, hg4, hg1]
    simp only [Nat.zero_testBit, Bool.false_or]
    rw [if_any_decideZ, decide_eq_decide]
    constructor
    · rintro ⟨hne, hall⟩
      refine ⟨fun h0 => hne (by rw [h0]; rfl), ?_⟩
      intro c hc
      exact hall _ (List.mem_map.mpr ⟨c, hc, rfl⟩)
    · rintro ⟨hne, hall⟩
      refine ⟨fun h0 => hne (List.map_eq_nil_iff.mp h0), ?_⟩
      intro x hx
      obtain ⟨c, hc, rfl⟩ := List.mem_map.mp hx
      exact hall c hc
  · intro hmem h1 h2 h3
    have hlen : (n.f.ndef.status.getD []).length ≠ 0 := by
      intro h0
      rw [List.length_eq_zero.mp h0] at hmem
      exact List.not_mem_nil _ hmem
    have hfold : n.f.status =
        (n.f.ndef.status.getD []).foldl (statusDirStep (childAggregate ds))
          (toStatusFlag n.f.ndef) := by
      rw [hstat]
      unfold buildStatusFlag
      rw [if_pos hlen]
    show n.f.status.testBit 1 = _
    rw [hfold, foldBit1_orFailure _ _ hmem h1 h2, toStatusFlag_bit1 n.f.ndef h3]
    simp only [Bool.false_or]
    rw [hca, hg1]
    simp only [Nat.zero_testBit, Bool.false_or]
    exact any_storedEnabled_bit ds 1

/-- Fields of the C3 witness parent, declaring `["&success", "|failure"]`. -/
def c3wf : TGFields :=
  { id := "", name := "W2", ndef := { name := "W2", status := some ["&success", "|failure"] } }

/-- Children of the C3 witness parent: one success-capable, one
failure-capable, both enabled with nonzero status. -/
def c3wcs : List TreeGraphData := [mkLeaf "A" ["success"], mkLeaf "B" ["failure"]]

/-- The C3 witness tree and its refreshed child list. -/
def c3wt : TreeGraphData := .mk c3wf (some c3wcs)

def c3wds : List TreeGraphData := (refreshTreeDataId c3wt 0).1.children.getD []

theorem C3_and_directive_amended_witness :
    ((refreshTreeDataId c3wt 0).1.f.status.testBit StatusFlag.SUCCESS =
      decide (storedEnabled c3wds ≠ [] ∧ ∀ c ∈ storedEnabled c3wds,
        (storedStatus c).testBit StatusFlag.SUCCESS = true ∧
        (storedStatus c).testBit StatusFlag.SUCCESS_ZERO = false)) ∧
    ((refreshTreeDataId c3wt 0).1.f.status.testBit StatusFlag.FAILURE =
      c3wds.any (fun c => !(c.f.disabled.getD false) &&
        (storedStatus c).testBit StatusFlag.FAILURE)) := by
  have h := C3_and_directive_amended c3wt 0 (refreshTreeDataId c3wt 0).1
    (self_mem_nodesTG _) c3wds rfl
  exact ⟨h.1 (by decide) (by decide) (by decide) (by decide),
    h.2.2 (by decide) (by decide) (by decide) (by decide)⟩

/-- The node-model record `createFileData` builds before attaching
children: falsy optional fields collapse to `undefined` (`none`), and
`input` / `output` / `args` are dropped entirely when the bound schema
(looked up again by name) declares none. -/
def fileBase (reg : Registry) (f : TGFields) : NMFields :=
  let conf := reg f.name
  { id := jsNumber f.id, name := f.name,
    desc := if f.desc = some "" then none else f.desc,
    args := if (conf.args.getD []).length == 0 then none else f.args,
    input := if (conf.input.getD []).length == 0 then none else f.input,
    output := if (conf.output.getD []).length == 0 then none else f.output,
    debug := if f.debug.getD false then f.debug else none,
    disabled := if f.disabled.getD false then f.disabled else none,
    path := if f.path = some "" then none else f.path }

/-- The graph-node record `createTreeData` builds before resolving
children or a subtree path: model fields copied, the definition bound by
name, the parent back-reference set. (`path` is notably *not* copied; the
source only assigns it on the subtree branches.) -/
def tgBase (reg : Registry) (nf : NMFields) (parent : Option String) : TGFields :=
  { id := intDec nf.id, name := nf.name, desc := nf.desc, args := nf.args,
    input := nf.input, output := nf.output, debug := nf.debug,
    disabled := nf.disabled, ndef := reg nf.name, parent := parent }

mutual
/-- `createNode(data, includeChildren)`: graph node back to compact model.
In this embedding the source's per-element `v ?? ""` on input/output and
the `v !== undefined` filter on args are identity maps, since modelled
array elements are strings and modelled arg values are always present. -/
def createNode : TreeGraphData → Bool → NodeModel
  | .mk f cs, includeChildren =>
    let base : NMFields :=
      { id := jsNumber f.id, name := f.name, desc := f.desc, args := f.args,
        input := f.input, output := f.output, debug := f.debug,
        disabled := f.disabled, path := f.path }
    match cs with
    | none => .mk base none
    | some l =>
      if !isSubtreeRoot (.mk f (some l)) && includeChildren then
        .mk base (some (createNodeList l))
      else .mk base none

def createNodeList : List TreeGraphData → List NodeModel
  | [] => []
  | c :: r => createNode c true :: createNodeList r
end

mutual
/-- `createFileData(data, includeSubtree)`: graph node to on-disk model for
saving. Falsy optional fields collapse to `undefined` (`none`); `input`,
`output` and `args` are dropped entirely when the bound schema declares
none; children are inlined only when present, nonempty, and either a full
export is requested or the node is not a subtree root. -/
def createFileData (reg : Registry) : TreeGraphData → Bool → NodeModel
  | .mk f cs, includeSubtree =>
    let base := fileBase reg f
    match cs with
    | none => .mk base none
    | some l =>
      if l.length != 0 && (includeSubtree || !isSubtreeRoot (.mk f (some l))) then
        .mk base (some (createFileList reg l includeSubtree))
      else .mk base none

def createFileList (reg : Registry) : List TreeGraphData → Bool → List NodeModel
  | [], _ => []
  | c :: r, includeSubtree => createFileData reg c includeSubtree :: createFileList reg r includeSubtree
end

/-- One subtree file as the resolver sees it: its parsed root node model
and its modification time (`readFileSync` + `JSON.parse` + `statSync`;
an unreadable or unparsable file is simply absent from the list). -/
structure FileEntry where
  root : NodeModel
  mtime : Nat

mutual
/-- `createTreeData(node, parent)`: builds the enriched graph, resolving
`path` references through the filesystem `fs` and detecting reference
cycles with the traversal stack (the source's module-level `parsingStack`,
threaded explicitly here: reset when `parent` is absent, extended around
the descent into a subtree file). `fuel` bounds the recursion depth —
every recursive call consumes one unit, and `none` means exhaustion; any
sufficiently large fuel yields the source's result. Diagnostics
(`message.error`) are collected in order. -/
def createTreeDataF (reg : Registry) (fs : List (String × FileEntry)) :
    Nat → NodeModel → Option String → List String →
    Option (TreeGraphData × List Diag)
  | 0, _, _, _ => none
  | fuel + 1, .mk nf ncs, parent, stack0 =>
    let stack := if parent == none then [] else stack0
    let base := tgBase reg nf parent
    match ncs with
    | some children =>
      match createTreeChildrenF reg fs fuel children base.id stack with
      | none => none
      | some (cs2, diags) => some (.mk base (some cs2), diags)
    | none =>
      match nf.path with
      | some p =>
        if p == "" then some (.mk base none, [])
        else if stack.contains p then
          some (.mk { base with path := some p } none, [.circular p])
        else
          match fs.lookup p with
          | none => some (.mk base none, [.subtreeFail p])
          | some entry =>
            match createTreeDataF reg fs fuel entry.root (some base.id) (stack ++ [p]) with
            | none => none
            | some (sub, diags) =>
              match sub with
              | .mk sf scs =>
                let sf2 : TGFields := { sf with
                  lastModified := some entry.mtime
                  path := some p
                  debug := nf.debug
                  disabled := nf.disabled
                  parent := parent
                  id := intDec nf.id }
                some (.mk sf2 scs, diags)
      | none => some (.mk base none, [])

def createTreeChildrenF (reg : Registry) (fs : List (String × FileEntry)) :
    Nat → List NodeModel → String → List String →
    Option (List TreeGraphData × List Diag)
  | 0, _, _, _ => none
  | _ + 1, [], _, _ => some ([], [])
  | fuel + 1, c :: rest, pid, stack =>
    match createTreeDataF reg fs fuel c (some pid) stack with
    | none => none
    | some (c2, d1) =>
      match createTreeChildrenF reg fs fuel rest pid stack with
      | none => none
      | some (rest2, d2) => some (c2 :: rest2, d1 ++ d2)
end

/-- C10: a node with id "1" (the tree's own root) is never a subtree root,
whatever its `path`; consequently both `createFileData` (for either value
of the full-export flag) and `createNode` serialize its nonempty children
inline. -/
theorem C10_root_children_inline (reg : Registry) (f : TGFields)
    (cs : List TreeGraphData) (hid : f.id = "1") (hne : cs ≠ []) :
    isSubtreeRoot (.mk f (some cs)) = false ∧
    (∀ includeSubtree, (createFileData reg (.mk f (some cs)) includeSubtree).children =
      some (createFileList reg cs includeSubtree)) ∧
    (createNode (.mk f (some cs)) true).children = some (createNodeList cs) := by
  have hsub : isSubtreeRoot (.mk f (some cs)) = false := by
    simp [isSubtreeRoot, TreeGraphData.f, hid]
  have hlen : (cs.length != 0) = true := by
    simp only [bne_iff_ne, ne_eq]
    exact fun h0 => hne (List.length_eq_zero.mp h0)
  refine ⟨hsub, ?_, ?_⟩
  · intro includeSubtree
    simp only [createFileData, hsub, hlen, Bool.not_false, Bool.or_true, Bool.and_self,
      if_true, NodeModel.children]
  · simp only [createNode, hsub, Bool.not_false, Bool.true_and, if_true, NodeModel.children]

/-- The registry used by concrete witnesses: every name unknown. -/
def regU : Registry := fun _ => unknownNodeDef

/-- Fields of the C10 witness root: id "1" with a path set. -/
def c10f : TGFields :=
  { id := "1", name := "Root", path := some "sub.json", ndef := unknownNodeDef }

/-- Children of the C10 witness root. -/
def c10cs : List TreeGraphData := [mkLeaf "L" []]

theorem C10_root_children_inline_witness :
    isSubtreeRoot (.mk c10f (some c10cs)) = false ∧
    (createFileData regU (.mk c10f (some c10cs)) false).children =
      some (createFileList regU c10cs false) ∧
    (createNode (.mk c10f (some c10cs)) true).children = some (createNodeList c10cs) := by
  obtain ⟨h1, h2, h3⟩ := C10_root_children_inline regU c10f c10cs rfl (by simp [c10cs])
  exact ⟨h1, h2 false, h3⟩

mutual
/-- Preorder list of the nodes of a compact model tree. -/
def NodeModel.nodes : NodeModel → List NodeModel
  | .mk f none => [.mk f none]
  | .mk f (some cs) => .mk f (some cs) :: nodesML cs

def nodesML : List NodeModel → List NodeModel
  | [] => []
  | c :: r => c.nodes ++ nodesML r
end

theorem self_mem_nodesNM (m : NodeModel) : m ∈ m.nodes := by
  obtain ⟨f, cs⟩ := m
  cases cs <;> exact List.mem_cons_self _ _

theorem mem_nodesML_of_mem (c : NodeModel) (cs : List NodeModel) (hc : c ∈ cs)
    (n : NodeModel) (hn : n ∈ c.nodes) : n ∈ nodesML cs := by
  induction cs with
  | nil => cases hc
  | cons a r ih =>
    rcases List.mem_cons.mp hc with rfl | hc2
    · simp only [nodesML, List.mem_append]
      exact Or.inl hn
    · simp only [nodesML, List.mem_append]
      exact Or.inr (ih hc2)

theorem mem_nodes_of_child (f : NMFields) (cs : List NodeModel) (n : NodeModel)
    (hn : n ∈ nodesML cs) : n ∈ (NodeModel.mk f (some cs)).nodes := by
  simp only [NodeModel.nodes]
  exact List.mem_cons_of_mem _ hn

mutual
/-- Fuel sufficient for `createTreeDataF` on a path-free model: one unit
per `createTreeDataF` / `createTreeChildrenF` invocation. -/
def NodeModel.fuelNeed : NodeModel → Nat
  | .mk _ none => 1
  | .mk _ (some cs) => 1 + fuelNeedML cs

def fuelNeedML : List NodeModel → Nat
  | [] => 1
  | c :: r => 1 + c.fuelNeed + fuelNeedML r
end

theorem fuelNeed_pos (m : NodeModel) : 0 < m.fuelNeed := by
  obtain ⟨f, cs⟩ := m
  cases cs <;> simp [NodeModel.fuelNeed]

theorem fuelNeedML_pos (cs : List NodeModel) : 0 < fuelNeedML cs := by
  cases cs <;> simp [fuelNeedML]

/-- The claim-side elision of empty optional fields, applied to one node's
fields: `desc`, `args`, `input`, `output`, `debug`, `disabled`, `path`
become absent when empty (empty string, empty collection, false). -/
def normF (f : NMFields) : NMFields :=
  { id := f.id, name := f.name,
    desc := if f.desc = some "" then none else f.desc,
    args := if f.args = some [] then none else f.args,
    input := if f.input = some [] then none else f.input,
    output := if f.output = some [] then none else f.output,
    debug := if f.debug = some false then none else f.debug,
    disabled := if f.disabled = some false then none else f.disabled,
    path := if f.path = some "" then none else f.path }

mutual
/-- The claim-side normal form of a compact model: every empty optional
field elided ("reproduces `m` up to key ordering and elision of empty
optional fields" becomes equality of normal forms). -/
def normalizeModel : NodeModel → NodeModel
  | .mk f cs =>
    .mk (normF f)
      (match cs with
       | none => none
       | some [] => none
       | some l => some (normalizeList l))

def normalizeList : List NodeModel → List NodeModel
  | [] => []
  | c :: r => normalizeModel c :: normalizeList r
end

/-- A node's supplied `args` / `input` / `output` are declared by its
resolved definition whenever nonempty. -/
def coverTriple (reg : Registry) (n : NodeModel) : Prop :=
  (n.f.args.getD [] ≠ [] → (reg n.f.name).args.getD [] ≠ []) ∧
  (n.f.input.getD [] ≠ [] → (reg n.f.name).input.getD [] ≠ []) ∧
  (n.f.output.getD [] ≠ [] → (reg n.f.name).output.getD [] ≠ [])

theorem normStr_file (d : Option String) :
    (if (if d = some "" then none else d) = some "" then none
     else (if d = some "" then none else d)) = (if d = some "" then none else d) := by
  by_cases h : d = some "" <;> simp [h]

theorem normBool_file (d : Option Bool) :
    (if (if d.getD false then d else none) = some false then none
     else (if d.getD false then d else none)) = (if d = some false then none else d) := by
  rcases d with _ | b
  · decide
  · cases b <;> decide

theorem normOptList_file {α : Type _} [DecidableEq α] (c : Bool) (d : Option (List α))
    (h : c = true → d.getD [] = []) :
    (if (if c then none else d) = some ([] : List α) then none
     else (if c then none else d)) = (if d = some [] then none else d) := by
  cases c
  · simp
  · have hd := h rfl
    rcases d with _ | l
    · simp
    · simp only [Option.getD_some] at hd
      subst hd
      simp

/-- After a round trip through `tgBase` and `fileBase`, a node's fields
normalize to the same record as the original's, provided the schema
declares whatever nonempty `args` / `input` / `output` the node supplies
and the node carries no (truthy) subtree path. -/
theorem normF_fileBase (reg : Registry) (nf : NMFields) (parent : Option String)
    (hp : nf.path.getD "" = "")
    (hargs : nf.args.getD [] ≠ [] → (reg nf.name).args.getD [] ≠ [])
    (hinput : nf.input.getD [] ≠ [] → (reg nf.name).input.getD [] ≠ [])
    (houtput : nf.output.getD [] ≠ [] → (reg nf.name).output.getD [] ≠ []) :
    normF (fileBase reg (tgBase reg nf parent)) = normF nf := by
  have hargsEq := normOptList_file ((((reg nf.name).args.getD []).length == 0)) nf.args
    (fun hc => by
      by_contra hne
      exact hargs hne (List.length_eq_zero.mp (by simpa using hc)))
  have hinputEq := normOptList_file ((((reg nf.name).input.getD []).length == 0)) nf.input
    (fun hc => by
      by_contra hne
      exact hinput hne (List.length_eq_zero.mp (by simpa using hc)))
  have houtputEq := normOptList_file ((((reg nf.name).output.getD []).length == 0)) nf.output
    (fun hc => by
      by_contra hne
      exact houtput hne (List.length_eq_zero.mp (by simpa using hc)))
  have hpathRHS : (if nf.path = some "" then none else nf.path) = (none : Option String) := by
    rcases hcase : nf.path with _ | p
    · simp
    · rw [hcase] at hp
      simp only [Option.getD_some] at hp
      subst hp
      simp
  unfold normF fileBase tgBase
  dsimp only
  rw [jsNumber_intDec nf.id, normStr_file nf.desc, normBool_file nf.debug,
    normBool_file nf.disabled, hargsEq, hinputEq, houtputEq, hpathRHS]
  simp

/-- Core lemma for C1: on a model whose nodes carry no (truthy) subtree
path and whose nonempty args/input/output are declared by their resolved
definitions, `createTreeDataF` succeeds with no diagnostics whenever the
fuel suffices, and `createFileData` of the result has the same normal form
as the input model. -/
theorem roundtrip_aux (reg : Registry) (fs : List (String × FileEntry)) : ∀ fuel : Nat,
    (∀ m : NodeModel, m.fuelNeed ≤ fuel → ∀ parent stack,
      (∀ n ∈ m.nodes, n.f.path.getD "" = "") →
      (∀ n ∈ m.nodes, coverTriple reg n) →
      ∃ g, createTreeDataF reg fs fuel m parent stack = some (g, []) ∧
        normalizeModel (createFileData reg g false) = normalizeModel m) ∧
    (∀ cs : List NodeModel, fuelNeedML cs ≤ fuel → ∀ pid stack,
      (∀ n ∈ nodesML cs, n.f.path.getD "" = "") →
      (∀ n ∈ nodesML cs, coverTriple reg n) →
      ∃ gs, createTreeChildrenF reg fs fuel cs pid stack = some (gs, []) ∧
        normalizeList (createFileList reg gs false) = normalizeList cs ∧
        (gs = [] ↔ cs = [])) := by
  intro fuel
  induction fuel with
  | zero =>
    constructor
    · intro m hm
      exact absurd (Nat.lt_of_lt_of_le (fuelNeed_pos m) hm) (by omega)
    · intro cs hcs
      exact absurd (Nat.lt_of_lt_of_le (fuelNeedML_pos cs) hcs) (by omega)
  | succ fuel ih =>
    obtain ⟨ihN, ihL⟩ := ih
    constructor
    · intro m hm parent stack hpath hcover
      obtain ⟨nf, ncs⟩ := m
      have hpSelf : nf.path.getD "" = "" := by
        have := hpath _ (self_mem_nodesNM (.mk nf ncs))
        simpa [NodeModel.f] using this
      have hcSelf : coverTriple reg (.mk nf ncs) :=
        hcover _ (self_mem_nodesNM (.mk nf ncs))
      have hcS : (nf.args.getD [] ≠ [] → (reg nf.name).args.getD [] ≠ []) ∧
          (nf.input.getD [] ≠ [] → (reg nf.name).input.getD [] ≠ []) ∧
          (nf.output.getD [] ≠ [] → (reg nf.name).output.getD [] ≠ []) := by
        simpa [coverTriple, NodeModel.f] using hcSelf
      cases ncs with
      | none =>
        have hrun : createTreeDataF reg fs (fuel + 1) (.mk nf none) parent stack =
            some (.mk (tgBase reg nf parent) none, []) := by
          rcases hcase : nf.path with _ | p
          · simp [createTreeDataF, hcase]
          · have hpe : p = "" := by
              have := hpSelf
              rw [hcase] at this
              simpa using this
            subst hpe
            simp [createTreeDataF, hcase]
        refine ⟨_, hrun, ?_⟩
        show normalizeModel (createFileData reg (.mk (tgBase reg nf parent) none) false) =
          normalizeModel (.mk nf none)
        have h1 : normalizeModel (createFileData reg (.mk (tgBase reg nf parent) none) false) =
            .mk (normF (fileBase reg (tgBase reg nf parent))) none := rfl
        have h2 : normalizeModel (NodeModel.mk nf none) = .mk (normF nf) none := rfl
        rw [h1, h2, normF_fileBase reg nf parent hpSelf hcS.1 hcS.2.1 hcS.2.2]
      | some children =>
        have hfl : fuelNeedML children ≤ fuel := by
          simp only [NodeModel.fuelNeed] at hm
          omega
        have hpathC : ∀ n ∈ nodesML children, n.f.path.getD "" = "" := fun n hn =>
          hpath n (mem_nodes_of_child nf children n hn)
        have hcoverC : ∀ n ∈ nodesML children, coverTriple reg n := fun n hn =>
          hcover n (mem_nodes_of_child nf children n hn)
        obtain ⟨gs, hgs, hnorm, hemp⟩ := ihL children hfl (intDec nf.id)
          (if parent == none then [] else stack) hpathC hcoverC
        have hrun : createTreeDataF reg fs (fuel + 1) (.mk nf (some children)) parent stack =
            some (.mk (tgBase reg nf parent) (some gs), []) := by
          simp only [createTreeDataF]
          rw [show (tgBase reg nf parent).id = intDec nf.id from rfl, hgs]
        refine ⟨_, hrun, ?_⟩
        have hsub : isSubtreeRoot (.mk (tgBase reg nf parent) (some gs)) = false := by
          simp [isSubtreeRoot, tgBase, TreeGraphData.f]
        cases gs with
        | nil =>
          have hcnil : children = [] := hemp.mp rfl
          subst hcnil
          have hfd : createFileData reg (.mk (tgBase reg nf parent) (some [])) false =
              .mk (fileBase reg (tgBase reg nf parent)) none := by
            simp [createFileData]
          rw [hfd]
          have h1 : normalizeModel (NodeModel.mk (fileBase reg (tgBase reg nf parent)) none) =
              .mk (normF (fileBase reg (tgBase reg nf parent))) none := rfl
          have h2 : normalizeModel (NodeModel.mk nf (some [])) = .mk (normF nf) none := rfl
          rw [h1, h2, normF_fileBase reg nf parent hpSelf hcS.1 hcS.2.1 hcS.2.2]
        | cons g1 grest =>
          have hcne : children ≠ [] := fun h0 => by
            have := hemp.mpr h0
            exact List.noConfusion this
          obtain ⟨c1, crest, rfl⟩ : ∃ c1 crest, children = c1 :: crest := by
            cases children with
            | nil => exact absurd rfl hcne
            | cons a b => exact ⟨a, b, rfl⟩
          have hfd : createFileData reg (.mk (tgBase reg nf parent) (some (g1 :: grest))) false =
              .mk (fileBase reg (tgBase reg nf parent))
                (some (createFileList reg (g1 :: grest) false)) := by
            simp [createFileData, hsub]
          rw [hfd]
          have h1 : ∀ l1 : List NodeModel, ∀ hne : l1 ≠ [],
              normalizeModel (NodeModel.mk (fileBase reg (tgBase reg nf parent)) (some l1)) =
              .mk (normF (fileBase reg (tgBase reg nf parent))) (some (normalizeList l1)) := by
            intro l1 hne
            cases l1 with
            | nil => exact absurd rfl hne
            | cons x xs => rfl
          have hflne : createFileList reg (g1 :: grest) false ≠ [] := by
            simp [createFileList]
          rw [h1 _ hflne]
          have h2 : normalizeModel (NodeModel.mk nf (some (c1 :: crest))) =
              .mk (normF nf) (some (normalizeList (c1 :: crest))) := rfl
          rw [h2, hnorm, normF_fileBase reg nf parent hpSelf hcS.1 hcS.2.1 hcS.2.2]
    · intro cs hcs pid stack hpath hcover
      cases cs with
      | nil =>
        refine ⟨[], by simp [createTreeChildrenF], by simp [createFileList], by simp⟩
      | cons c rest =>
        have h1 : c.fuelNeed ≤ fuel := by
          simp only [fuelNeedML] at hcs
          omega
        have h2 : fuelNeedML rest ≤ fuel := by
          simp only [fuelNeedML] at hcs
          omega
        have hpc : ∀ n ∈ c.nodes, n.f.path.getD "" = "" := fun n hn =>
          hpath n (mem_nodesML_of_mem c (c :: rest) (List.mem_cons_self _ _) n hn)
        have hcc : ∀ n ∈ c.nodes, coverTriple reg n := fun n hn =>
          hcover n (mem_nodesML_of_mem c (c :: rest) (List.mem_cons_self _ _) n hn)
        have hpr : ∀ n ∈ nodesML rest, n.f.path.getD "" = "" := by
          intro n hn
          apply hpath n
          simp only [nodesML, List.mem_append]
          exact Or.inr hn
        have hcr : ∀ n ∈ nodesML rest, coverTriple reg n := by
          intro n hn
          apply hcover n
          simp only [nodesML, List.mem_append]
          exact Or.inr hn
        obtain ⟨g, hg, hgn⟩ := ihN c h1 (some pid) stack hpc hcc
        obtain ⟨gs, hgs, hgsn, hempty⟩ := ihL rest h2 pid stack hpr hcr
        refine ⟨g :: gs, ?_, ?_, by simp⟩
        · simp only [createTreeChildrenF, hg, hgs]
          rfl
        · simp only [createFileList, normalizeList]
          rw [hgn, hgsn]

/-- Counterexample model for C1: a node supplying a nonempty `args` object
while its (resolvable) definition declares no args. -/
def c1m : NodeModel :=
  .mk { id := 1, name := "X", args := some [("a", JsValue.num 1)] } none

/-- Counterexample registry for C1: the name "X" resolves to a definition
with no declared args. -/
def c1reg : Registry := fun _ => { name := "X" }

/-- C1 counterexample: the round trip drops the node's nonempty `args`
(because the definition declares none), so the result does not reproduce
`m` even up to elision of empty fields — `args` was not empty. -/
theorem C1_counterexample :
    (createTreeDataF c1reg [] 1 c1m none []).map
        (fun p => (normalizeModel (createFileData c1reg p.1 false)).f.args) = some none ∧
    (normalizeModel c1m).f.args = some (some [("a", JsValue.num 1)]) := ⟨rfl, rfl⟩

/-- C1 amended: the round trip `createFileData ∘ createTreeData` reproduces
a path-free model up to key ordering and elision of empty optional fields,
**provided additionally** that every node's nonempty `args` / `input` /
`output` are declared by its resolved definition (`createFileData` drops
any of the three entirely when the schema declares none, losing supplied
values otherwise — see `C1_counterexample`). -/
theorem C1_roundtrip_amended (reg : Registry) (fs : List (String × FileEntry))
    (m : NodeModel) (fuel : Nat) (hfuel : m.fuelNeed ≤ fuel)
    (hpath : ∀ n ∈ m.nodes, n.f.path.getD "" = "")
    (hcover : ∀ n ∈ m.nodes, coverTriple reg n) :
    ∃ g, createTreeDataF reg fs fuel m none [] = some (g, []) ∧
      normalizeModel (createFileData reg g false) = normalizeModel m :=
  (roundtrip_aux reg fs fuel).1 m hfuel none [] hpath hcover

/-- The model of the C1 witness: a Sequence with one Log child carrying a
declared string argument. -/
def c1wm : NodeModel :=
  .mk { id := 1, name := "Sequence" }
    (some [.mk { id := 2, name := "Log", args := some [("str", JsValue.str "hello")] } none])

/-- The registry of the C1 witness: "Log" declares the `str` argument. -/
def c1wreg : Registry := fun nm =>
  if nm == "Log" then { name := "Log", args := some [⟨"str", "string", none, none⟩] }
  else { name := nm }

theorem C1_roundtrip_amended_witness :
    ∃ g, createTreeDataF c1wreg [] 4 c1wm none [] = some (g, []) ∧
      normalizeModel (createFileData c1wreg g false) = normalizeModel c1wm := by
  apply C1_roundtrip_amended c1wreg [] c1wm 4 (by decide)
  · intro n hn
    simp only [c1wm, NodeModel.nodes, nodesML, List.append_nil] at hn
    rcases List.mem_cons.mp hn with rfl | hn2
    · rfl
    · rcases List.mem_cons.mp hn2 with rfl | hn3
      · rfl
      · cases hn3
  · intro n hn
    simp only [c1wm, NodeModel.nodes, nodesML, List.append_nil] at hn
    rcases List.mem_cons.mp hn with rfl | hn2
    · exact ⟨by intro h; exact absurd rfl h, by intro h; exact absurd rfl h,
        by intro h; exact absurd rfl h⟩
    · rcases List.mem_cons.mp hn2 with rfl | hn3
      · refine ⟨fun _ => ?_, by intro h; exact absurd rfl h, by intro h; exact absurd rfl h⟩
        decide
      · cases hn3

/-- File A of the C8 cycle scenario: its root references subtree file B. -/
def rootA : NodeModel := .mk { id := 1, name := "a", path := some "B" } none

/-- File B of the C8 cycle scenario: its root references subtree file A. -/
def rootB : NodeModel := .mk { id := 1, name := "b", path := some "A" } none

/-- The filesystem of the C8 scenario: files A and B referencing each
other. -/
def fsAB : List (String × FileEntry) := [("A", ⟨rootA, 100⟩), ("B", ⟨rootB, 200⟩)]

/-- C8: building file A (whose root references B, which references A
again) terminates for every sufficient fuel with one fixed result: the
node is kept as an unresolved reference (path set, no expanded children,
the resolved file's modification time recorded) and exactly one
circular-reference diagnostic is emitted for the one discovered cycle
edge. -/
theorem C8_cycle_detection (fuel : Nat) (h : 3 ≤ fuel) :
    ∃ g, createTreeDataF regU fsAB fuel rootA none [] = some (g, [Diag.circular "B"]) ∧
      g.f.path = some "B" ∧ g.children = none ∧ g.f.lastModified = some 200 := by
  obtain ⟨k, rfl⟩ : ∃ k, fuel = k + 3 := ⟨fuel - 3, by omega⟩
  exact ⟨_, rfl, rfl, rfl, rfl⟩

theorem C8_cycle_detection_witness :
    ∃ g, createTreeDataF regU fsAB 3 rootA none [] = some (g, [Diag.circular "B"]) ∧
      g.f.path = some "B" ∧ g.children = none ∧ g.f.lastModified = some 200 :=
  C8_cycle_detection 3 (by norm_num)

/-- JS array index defaulting: positions below `n` that are missing or
holes become `""` (`if (!data.input[i]) data.input[i] = ""`). -/
def padTo (l : List String) (n : Nat) : List String :=
  l ++ List.replicate (n - l.length) ""

/-- A scalar array element as a value. -/
def scalarToValue : JsScalar → JsValue
  | .num q => .num q
  | .str s => .str s
  | .boolv b => .boolv b

/-- `checkNodeArg(data, conf, i, verbose)`: validates declared argument `i`
(scalar or array) and, when it carries a `oneof` tag, the exclusivity
against the linked input slot. The source reads `data.args`, `data.input`,
`data.id` and `data.name`; those are passed explicitly here. -/
def checkNodeArg (ctx : ErrCtx) (args : Option (List (String × JsValue)))
    (input : Option (List String)) (conf : NodeDef) (i : Nat) (verbose : Bool) :
    Bool × List Diag :=
  let arg := (conf.args.getD []).getD i { name := "", type := "" }
  let value := (args.getD []).lookup arg.name
  let r1 : Bool × List Diag :=
    if isNodeArgArray arg then
      match value with
      | some (.arr elems) =>
        if !isNodeArgOptional arg && elems.length == 0 then
          (false, if verbose then [.notArray ctx arg.name] else [])
        else
          elems.foldl (fun acc e =>
            let r := checkNodeArgValue ctx arg (some (scalarToValue e)) verbose
            (acc.1 && r.1, acc.2 ++ r.2)) (true, [])
      | _ => (false, if verbose then [.notArray ctx arg.name] else [])
    else
      checkNodeArgValue ctx arg value verbose
  let r2 : Bool × List Diag :=
    match arg.oneof with
    | none => (true, [])
    | some tag =>
      let idx := (conf.input.getD []).findIdx? (fun v => chStartsWith v tag)
      let inputVal : Option JsValue :=
        match idx with
        | some j => ((input.getD []).get? j).map JsValue.str
        | none => none
      if !checkOneof ((args.getD []).lookup arg.name) inputVal then
        (false, if verbose then [.oneofViolation ctx arg.name] else [])
      else (true, [])
  (r1.1 && r2.1, r1.2 ++ r2.2)

/-- The per-node part of `checkNodeData` (children count, slot defaulting,
slot checks, slot truncation, argument checks and filtering), taking the
node's child count as an argument; returns (ok, mutated fields, diags). -/
def checkNodeOwn (reg : Registry) (nf : NMFields) (childLen : Nat) :
    Bool × NMFields × List Diag :=
  let ctx : ErrCtx := ⟨intDec nf.id, nf.name⟩
  let conf := reg nf.name
  let r1 : Bool × List Diag :=
    match conf.children with
    | some cnt =>
      if cnt != -1 && cnt != (childLen : Int) then
        (true, [Diag.childCount ctx cnt childLen])
      else (false, [])
    | none => (false, [])
  let rIn : Option (List String) × Bool × List Diag :=
    match conf.input with
    | none => (nf.input, false, [])
    | some il =>
      if il.length == 0 then (nf.input, false, [])
      else
        let padded := padTo (nf.input.getD []) il.length
        let errs := (List.range il.length).filterMap (fun i =>
          if isValidInputOrOutput il (some padded) i then none
          else some (Diag.inputRequired ctx (il.getD i "")))
        (some padded, chEndsWith ((il.getLast?).getD "") "...", errs)
  let input2 : Option (List String) :=
    match rIn.1 with
    | none => none
    | some l => if rIn.2.1 then some l else some (l.take (conf.input.getD []).length)
  let rOut : Option (List String) × Bool × List Diag :=
    match conf.output with
    | none => (nf.output, false, [])
    | some ol =>
      if ol.length == 0 then (nf.output, false, [])
      else
        let padded := padTo (nf.output.getD []) ol.length
        let errs := (List.range ol.length).filterMap (fun i =>
          if isValidInputOrOutput ol (some padded) i then none
          else some (Diag.outputRequired ctx (ol.getD i "")))
        (some padded, chEndsWith ((ol.getLast?).getD "") "...", errs)
  let output2 : Option (List String) :=
    match rOut.1 with
    | none => none
    | some l => if rOut.2.1 then some l else some (l.take (conf.output.getD []).length)
  let rArgs : Bool × Option (List (String × JsValue)) × List Diag :=
    match conf.args with
    | none => (true, nf.args, [])
    | some al =>
      let results := (List.range al.length).map
        (fun i => checkNodeArg ctx nf.args input2 conf i true)
      let filtered := al.filterMap
        (fun a => ((nf.args.getD []).lookup a.name).map (fun v => (a.name, v)))
      ((results.map (fun r => r.1)).all id, some filtered,
        (results.map (fun r => r.2)).flatten)
  let ok := !(r1.1 || rIn.2.2.length != 0 || rOut.2.2.length != 0 || !rArgs.1)
  (ok, { nf with input := input2, output := output2, args := rArgs.2.1 },
    r1.2 ++ rIn.2.2 ++ rOut.2.2 ++ rArgs.2.2)

mutual
/-- `checkNodeData(data)`: full validation of a model node. An
unresolvable name fails immediately with the "undefined node" diagnostic
and without descending; otherwise the node's own checks run and then every
child is checked (the loop never stops early), absent `children` being
replaced by `[]`. Returns (ok, mutated node, diagnostics in emission
order). -/
def checkNodeData (reg : Registry) : NodeModel → Bool × NodeModel × List Diag
  | .mk nf ncs =>
    if (reg nf.name).name = unknownNodeDef.name then
      (false, .mk nf ncs, [.undefinedNode ⟨intDec nf.id, nf.name⟩ nf.name])
    else
      let own := checkNodeOwn reg nf (ncs.getD []).length
      let ch :=
        match ncs with
        | some l => checkChildren reg l
        | none => (true, [], [])
      (own.1 && ch.1, .mk own.2.1 (some ch.2.1), own.2.2 ++ ch.2.2)

def checkChildren (reg : Registry) : List NodeModel → Bool × List NodeModel × List Diag
  | [] => (true, [], [])
  | c :: r =>
    let rc := checkNodeData reg c
    let rr := checkChildren reg r
    (rc.1 && rr.1, rc.2.1 :: rr.2.1, rc.2.2 ++ rr.2.2)
end

theorem checkChildren_spec (reg : Registry) (cs : List NodeModel) :
    checkChildren reg cs =
      (cs.all (fun c => (checkNodeData reg c).1),
       cs.map (fun c => (checkNodeData reg c).2.1),
       (cs.map (fun c => (checkNodeData reg c).2.2)).flatten) := by
  induction cs with
  | nil => rfl
  | cons c r ih =>
    simp only [checkChildren, ih, List.all_cons, List.map_cons, List.flatten_cons]

/-- Registry for the C9 scenario: only "P" is a known definition. -/
def c9reg : Registry := fun nm => if nm == "P" then { name := "P" } else unknownNodeDef

/-- Grandchild with an unresolvable name. -/
def c9u2 : NodeModel := .mk { id := 3, name := "U2" } none

/-- Child with an unresolvable name, itself holding `c9u2`. -/
def c9u : NodeModel := .mk { id := 2, name := "U" } (some [c9u2])

/-- A known root whose only child is the undefined node `c9u`. -/
def c9tree : NodeModel := .mk { id := 1, name := "P" } (some [c9u])

/-- C9 counterexample: validation of `c9tree` fails and reports the
undefined child `U`, but the undefined node's own child `U2` is **not**
visited — the source returns before the children loop — so the claim's
"traversal continues into that node's children" fails. -/
theorem C9_counterexample :
    (checkNodeData c9reg c9tree).2.2 = [Diag.undefinedNode ⟨"2", "U"⟩ "U"] ∧
    Diag.undefinedNode ⟨"3", "U2"⟩ "U2" ∉ (checkNodeData c9reg c9tree).2.2 ∧
    (checkNodeData c9reg c9tree).1 = false := by decide

/-- C9 amended: a node whose name does not resolve makes `checkNodeData`
report the "undefined node" diagnostic and fail immediately, without
descending into its own children; at a node that does resolve, every child
is checked — the result is the conjunction of the node's own verdict with
all the children's, and the diagnostics are the node's own followed by
every child's, in order — so errors of a failing child's siblings are
still collected. -/
theorem C9_undefined_node (reg : Registry) (m : NodeModel) :
    ((reg m.f.name).name = unknownNodeDef.name →
      checkNodeData reg m =
        (false, m, [.undefinedNode ⟨intDec m.f.id, m.f.name⟩ m.f.name])) ∧
    (∀ nf cs, m = .mk nf (some cs) → (reg nf.name).name ≠ unknownNodeDef.name →
      checkNodeData reg m =
        ((checkNodeOwn reg nf cs.length).1 && cs.all (fun c => (checkNodeData reg c).1),
         .mk (checkNodeOwn reg nf cs.length).2.1
           (some (cs.map (fun c => (checkNodeData reg c).2.1))),
         (checkNodeOwn reg nf cs.length).2.2 ++
           (cs.map (fun c => (checkNodeData reg c).2.2)).flatten)) := by
  constructor
  · intro hu
    obtain ⟨nf, ncs⟩ := m
    have hu2 : (reg nf.name).name = unknownNodeDef.name := hu
    show checkNodeData reg (.mk nf ncs) =
      (false, .mk nf ncs, [.undefinedNode ⟨intDec nf.id, nf.name⟩ nf.name])
    unfold checkNodeData
    rw [if_pos hu2]
  · rintro nf cs rfl hk
    have hred : checkNodeData reg (.mk nf (some cs)) =
        ((checkNodeOwn reg nf cs.length).1 && (checkChildren reg cs).1,
         .mk (checkNodeOwn reg nf cs.length).2.1 (some (checkChildren reg cs).2.1),
         (checkNodeOwn reg nf cs.length).2.2 ++ (checkChildren reg cs).2.2) := by
      unfold checkNodeData
      rw [if_neg hk]
      rfl
    rw [hred, checkChildren_spec]

/-- The input of the C9 witness's resolvable half: root `P` with one
undefined child. Instantiates both halves of `C9_undefined_node`. -/
theorem C9_undefined_node_witness :
    (checkNodeData c9reg c9u =
      (false, c9u, [.undefinedNode ⟨"2", "U"⟩ "U"])) ∧
    (checkNodeData c9reg c9tree =
      ((checkNodeOwn c9reg { id := 1, name := "P" } 1).1 &&
        [c9u].all (fun c => (checkNodeData c9reg c).1),
       .mk (checkNodeOwn c9reg { id := 1, name := "P" } 1).2.1
         (some ([c9u].map (fun c => (checkNodeData c9reg c).2.1))),
       (checkNodeOwn c9reg { id := 1, name := "P" } 1).2.2 ++
         ([c9u].map (fun c => (checkNodeData c9reg c).2.2)).flatten)) := by
  constructor
  · exact (C9_undefined_node c9reg c9u).1 (by decide)
  · exact (C9_undefined_node c9reg c9tree).2 { id := 1, name := "P" } [c9u] rfl (by decide)

end B3
